import Mathlib

/-!
Verification of the layout subsystem of the React-SmartArt-Diagram-Library.

The TypeScript source is embedded shallowly:
* JavaScript numbers are idealised as elements of a linear ordered field
  (instantiated with the rationals for computations and with the reals where
  trigonometry matters).
* The host math functions (Math.cos, Math.sin, Math.atan2, Math.sqrt) and the
  random source (Math.random) are parameters of the definitions that call
  them; on the reals they are instantiated with the genuine functions.
* The two external graph solvers (the dagre and elkjs libraries) are not part
  of the repository; they enter as parameters that may fail, mirroring a
  library call that can throw.  Everything the repository itself does (graph
  conversion, direction mapping, read-back, bounds, centering) is embedded.
-/

namespace SmartArt

/-- Coordinates of a point, src/lib/types: Position. -/
@[ext]
structure Position (α : Type) where
  x : α
  y : α
deriving DecidableEq

/-- Node dimensions, src/lib/types: Size. -/
@[ext]
structure Size (α : Type) where
  width : α
  height : α
deriving DecidableEq

/-- A diagram node: identifier, mutable position, size and a display label
(the remaining data fields are never read nor written by the layout code and
are carried along unchanged by the object spreads in the source). -/
@[ext]
structure DiagramNode (α : Type) where
  id : String
  position : Position α
  size : Size α
  label : String := ""
deriving DecidableEq

/-- A diagram edge: identifier plus source and target node ids. -/
structure DiagramEdge where
  id : String
  source : String
  target : String
deriving DecidableEq

/-- The spacing triple of a layout configuration. -/
structure Spacing (α : Type) where
  horizontal : α
  vertical : α
  node : α
deriving DecidableEq

/-- Layout configuration (LayoutConfig in src/lib/types). -/
structure LayoutConfig (α : Type) where
  type : String
  direction : String
  spacing : Spacing α
  alignment : Option String := none
deriving DecidableEq

/-- The diagram record handled by the layout manager (SmartDiagramData).
Fields other than nodes, edges and layout are never touched by the layout
code (the manager returns them via the object spread) and are omitted. -/
structure SmartDiagramData (α : Type) where
  nodes : List (DiagramNode α)
  edges : List DiagramEdge
  layout : LayoutConfig α
deriving DecidableEq

variable {α : Type} [LinearOrderedField α]

/-! ## Geometry primitives, src/src/lib/utils/geometry.ts -/

namespace GeometryUtils

/-- GeometryUtils.distance: Euclidean distance; Math.sqrt is the parameter. -/
def distance (sqrtf : α → α) (p1 p2 : Position α) : α :=
  sqrtf ((p2.x - p1.x) ^ 2 + (p2.y - p1.y) ^ 2)

/-- GeometryUtils.angle: Math.atan2(p2.y - p1.y, p2.x - p1.x). -/
def angle (atan2f : α → α → α) (p1 p2 : Position α) : α :=
  atan2f (p2.y - p1.y) (p2.x - p1.x)

/-- GeometryUtils.clamp: Math.min(Math.max(value, min), max). -/
def clamp (value lo hi : α) : α :=
  min (max value lo) hi

/-- The denominator determinant of GeometryUtils.getLineIntersection. -/
def intersectionDenom (l1s l1e l2s l2e : Position α) : α :=
  (l1s.x - l1e.x) * (l2s.y - l2e.y) - (l1s.y - l1e.y) * (l2s.x - l2e.x)

/-- GeometryUtils.getLineIntersection: intersection point of two finite
segments, none when the determinant is below the 1e-10 tolerance or the
parameters fall outside [0,1]. -/
def getLineIntersection (l1s l1e l2s l2e : Position α) : Option (Position α) :=
  let x1 := l1s.x
  let y1 := l1s.y
  let x2 := l1e.x
  let y2 := l1e.y
  let x3 := l2s.x
  let y3 := l2s.y
  let x4 := l2e.x
  let y4 := l2e.y
  let denom := (x1 - x2) * (y3 - y4) - (y1 - y2) * (x3 - x4)
  if abs denom < 1 / 10 ^ 10 then none
  else
    let t := ((x1 - x3) * (y3 - y4) - (y1 - y3) * (x3 - x4)) / denom
    let u := -((x1 - x2) * (y1 - y3) - (y1 - y2) * (x1 - x3)) / denom
    if 0 ≤ t ∧ t ≤ 1 ∧ 0 ≤ u ∧ u ≤ 1 then
      some ⟨x1 + t * (x2 - x1), y1 + t * (y2 - y1)⟩
    else none

end GeometryUtils

/-! ## Oracle for the host math library -/

/-- The transcendental functions of the JS Math object that the engines call;
they are parameters of the embedding and are instantiated with the real
functions where a claim depends on their values. -/
structure MathOracle (α : Type) where
  pi : α
  cosf : α → α
  sinf : α → α
  atan2f : α → α → α
  sqrtf : α → α

/-! ## Custom layout engine, src/src/lib/layouts/engines/custom.ts -/

/-- The optional CustomLayoutOptions record passed to the constructor. -/
structure CustomLayoutOptions (α : Type) where
  algorithm : Option String := none
  iterations : Option ℕ := none
  repulsion : Option α := none
  attraction : Option α := none
  damping : Option α := none
  centerX : Option α := none
  centerY : Option α := none

/-- The fully defaulted options held by the engine (Required of the above). -/
structure ResolvedOptions (α : Type) where
  algorithm : String
  iterations : ℕ
  repulsion : α
  attraction : α
  damping : α
  centerX : α
  centerY : α

/-- JS defaulting idiom `v || d` for a numeric option: an absent value and
the falsy value 0 both yield the default. -/
def orFalsy (v : Option α) (d : α) : α :=
  match v with
  | none => d
  | some x => if x = 0 then d else x

/-- JS defaulting idiom `v || d` for a natural-number option. -/
def orFalsyNat (v : Option ℕ) (d : ℕ) : ℕ :=
  match v with
  | none => d
  | some x => if x = 0 then d else x

/-- JS defaulting idiom `v || d` for a string option (empty string is falsy). -/
def orFalsyStr (v : Option String) (d : String) : String :=
  match v with
  | none => d
  | some x => if x = "" then d else x

/-- The CustomLayoutEngine constructor: fill every option with its default
(algorithm force, 100 iterations, repulsion 1000, attraction 0.1,
damping 0.9, center (400, 300)). -/
def resolveOptions (o : CustomLayoutOptions α) : ResolvedOptions α where
  algorithm := orFalsyStr o.algorithm "force"
  iterations := orFalsyNat o.iterations 100
  repulsion := orFalsy o.repulsion 1000
  attraction := orFalsy o.attraction (1 / 10)
  damping := orFalsy o.damping (9 / 10)
  centerX := orFalsy o.centerX 400
  centerY := orFalsy o.centerY 300

/-- Apply a function to the element at an index of a list, identity when the
index is out of range (models an in-place update of a JS array slot). -/
def updateAt (l : List β) (i : ℕ) (g : β → β) : List β :=
  match l[i]? with
  | some v => l.set i (g v)
  | none => l

/-- Indexed map starting from a given index (models forEach((v, index))). -/
def mapIdxGo (f : ℕ → β → γ) : ℕ → List β → List γ
  | _, [] => []
  | k, b :: t => f k b :: mapIdxGo f (k + 1) t

/-- Indexed map over a list, the JS forEach((v, index)) idiom. -/
def mapIdxL (f : ℕ → β → γ) (l : List β) : List γ :=
  mapIdxGo f 0 l

/-- Indexed filter-map starting from a given index. -/
def filterMapIdxGo (f : ℕ → β → Option γ) : ℕ → List β → List γ
  | _, [] => []
  | k, b :: t =>
    match f k b with
    | some c => c :: filterMapIdxGo f (k + 1) t
    | none => filterMapIdxGo f (k + 1) t

/-- Indexed filter-map over a list (forEach that conditionally pushes). -/
def filterMapIdxL (f : ℕ → β → Option γ) (l : List β) : List γ :=
  filterMapIdxGo f 0 l

namespace CustomLayoutEngine

/-- One repulsive interaction of the force-directed loop bodies for the pair
of indices (i, j): force magnitude repulsion / (d^2 + 1) along the angle
between the two node positions, pushed apart. -/
def applyRepulsion (M : MathOracle α) (repulsion : α) (nodes : List (DiagramNode α))
    (fs : List (Position α)) (i j : ℕ) : List (Position α) :=
  match nodes[i]?, nodes[j]? with
  | some n1, some n2 =>
    let d := GeometryUtils.distance M.sqrtf n1.position n2.position
    let f := repulsion / (d * d + 1)
    let a := GeometryUtils.angle M.atan2f n1.position n2.position
    let fs1 := updateAt fs i (fun v => ⟨v.x - M.cosf a * f, v.y⟩)
    let fs2 := updateAt fs1 i (fun v => ⟨v.x, v.y - M.sinf a * f⟩)
    let fs3 := updateAt fs2 j (fun v => ⟨v.x + M.cosf a * f, v.y⟩)
    updateAt fs3 j (fun v => ⟨v.x, v.y + M.sinf a * f⟩)
  | _, _ => fs

/-- All repulsive interactions: every unordered pair i < j in index order. -/
def repulsionPass (M : MathOracle α) (repulsion : α) (nodes : List (DiagramNode α))
    (fs : List (Position α)) : List (Position α) :=
  (List.range nodes.length).foldl
    (fun acc i =>
      (List.range' (i + 1) (nodes.length - (i + 1))).foldl
        (fun acc2 j => applyRepulsion M repulsion nodes acc2 i j) acc)
    fs

/-- One attractive interaction for an edge: skipped unless both endpoint ids
resolve to nodes (the source looks nodes up with Array.find, hence the first
index whose id matches); linear spring attraction * d along the angle. -/
def applyAttraction (M : MathOracle α) (attraction : α) (nodes : List (DiagramNode α))
    (fs : List (Position α)) (e : DiagramEdge) : List (Position α) :=
  match nodes.findIdx? (fun n => n.id = e.source), nodes.findIdx? (fun n => n.id = e.target) with
  | some si, some ti =>
    match nodes[si]?, nodes[ti]? with
    | some sn, some tn =>
      let d := GeometryUtils.distance M.sqrtf sn.position tn.position
      let f := attraction * d
      let a := GeometryUtils.angle M.atan2f sn.position tn.position
      let fs1 := updateAt fs si (fun v => ⟨v.x + M.cosf a * f, v.y⟩)
      let fs2 := updateAt fs1 si (fun v => ⟨v.x, v.y + M.sinf a * f⟩)
      let fs3 := updateAt fs2 ti (fun v => ⟨v.x - M.cosf a * f, v.y⟩)
      updateAt fs3 ti (fun v => ⟨v.x, v.y - M.sinf a * f⟩)
    | _, _ => fs
  | _, _ => fs

/-- One iteration of forceDirectedLayout: reset forces to zero, accumulate
repulsion over all pairs and attraction over all edges, then move every node
by its force scaled by the damping factor and clamp into [-1000, 2000]. -/
def forceStep (M : MathOracle α) (opts : ResolvedOptions α) (edges : List DiagramEdge)
    (nodes : List (DiagramNode α)) : List (DiagramNode α) :=
  let forces0 : List (Position α) := nodes.map (fun _ => ⟨0, 0⟩)
  let forcesR := repulsionPass M opts.repulsion nodes forces0
  let forcesA := edges.foldl (fun fs e => applyAttraction M opts.attraction nodes fs e) forcesR
  (nodes.zip forcesA).map fun p =>
    { p.1 with
      position :=
        ⟨GeometryUtils.clamp (p.1.position.x + p.2.x * opts.damping) (-1000) 2000,
         GeometryUtils.clamp (p.1.position.y + p.2.y * opts.damping) (-1000) 2000⟩ }

/-- forceDirectedLayout: the iteration loop, run opts.iterations times. -/
def forceDirectedLayout (M : MathOracle α) (opts : ResolvedOptions α)
    (edges : List DiagramEdge) (nodes : List (DiagramNode α)) : List (DiagramNode α) :=
  (forceStep M opts edges)^[opts.iterations] nodes

/-- circularLayout: all nodes evenly on a circle around the configured
center, radius min(300, n * 50 / (2 pi)), starting at the top (-pi/2). -/
def circularLayout (M : MathOracle α) (opts : ResolvedOptions α)
    (nodes : List (DiagramNode α)) : List (DiagramNode α) :=
  let n : α := (nodes.length : α)
  let radius := min 300 ((n * 50) / (2 * M.pi))
  mapIdxL (fun k node =>
    let a := ((k : α) / n) * (2 * M.pi) - M.pi / 2
    { node with
      position := ⟨opts.centerX + M.cosf a * radius, opts.centerY + M.sinf a * radius⟩ })
    nodes

/-- The adjacency list of treeLayout: for a source id, the targets of its
edges in input order (Map keyed by id; keys of node ids start at []). -/
def adjOf (edges : List DiagramEdge) (s : String) : List String :=
  (edges.filter (fun e => e.source = s)).map (fun e => e.target)

/-- Helper of lastIdxOf carrying the index of the head. -/
def lastIdxGo (a : String) : ℕ → List String → Option ℕ
  | _, [] => none
  | k, b :: t =>
    match lastIdxGo a (k + 1) t with
    | some r => some r
    | none => if b = a then some k else none

/-- The nodeMap lookup of treeLayout: Map.set keeps the last binding, so an
id resolves to the last index carrying it. -/
def lastIdxOf (ids : List String) (a : String) : Option ℕ :=
  lastIdxGo a 0 ids

/-- Root detection of treeLayout: indices of the nodes that appear as no
edge's target; when there is none and the node list is non-empty the first
node is forced to be the sole root. -/
def treeRootIdxs (nodes : List (DiagramNode α)) (edges : List DiagramEdge) : List ℕ :=
  let targets := edges.map (fun e => e.target)
  let roots := filterMapIdxL
    (fun i n => if n.id ∈ targets then none else some i) nodes
  if roots.isEmpty ∧ ¬ nodes.isEmpty then [0] else roots

/-- A queue entry of the tree BFS: the index of the node object it holds
plus the position and level it was enqueued with. -/
structure QItem (α : Type) where
  idx : ℕ
  x : α
  y : α
  level : ℕ

/-- The BFS loop of treeLayout.  Dequeue; skip ids already visited;
otherwise mark visited, write the queued position onto the node, and enqueue
every existing, not yet visited child centered under the parent with 150
horizontal spacing and 100 below.  The fuel argument embeds the while loop;
treeLayout passes fuel that provably exceeds the number of loop turns. -/
def treeBFS (edges : List DiagramEdge) (ids : List String) :
    ℕ → List (QItem α) → List String → List (DiagramNode α) →
    List (DiagramNode α) × List String
  | 0, _, visited, ns => (ns, visited)
  | _ + 1, [], visited, ns => (ns, visited)
  | fuel + 1, item :: rest, visited, ns =>
    match ns[item.idx]? with
    | none => treeBFS edges ids fuel rest visited ns
    | some node =>
      if node.id ∈ visited then
        treeBFS edges ids fuel rest visited ns
      else
        let visited2 := node.id :: visited
        let ns2 := ns.set item.idx { node with position := ⟨item.x, item.y⟩ }
        let children := adjOf edges node.id
        let startX := item.x - (((children.length : α) - 1) * 150) / 2
        let pushes := filterMapIdxL (fun j cid =>
          match lastIdxOf ids cid with
          | some ci =>
            if cid ∈ visited2 then none
            else some (⟨ci, startX + (j : α) * 150, item.y + 100, item.level + 1⟩ : QItem α)
          | none => none) children
        treeBFS edges ids fuel (rest ++ pushes) visited2 ns2

/-- treeLayout up to the BFS result pair: the repositioned nodes together
with the set (as a list) of visited ids, i.e. of the nodes whose position
the BFS assigned. -/
def treeLayoutRun (opts : ResolvedOptions α) (edges : List DiagramEdge)
    (nodes : List (DiagramNode α)) : List (DiagramNode α) × List String :=
  let ids := nodes.map (fun n => n.id)
  let roots := treeRootIdxs nodes edges
  let queue : List (QItem α) := mapIdxL (fun k ri =>
    ⟨ri, opts.centerX + ((k : α) - (roots.length : α) / 2) * 200, opts.centerY - 200, 0⟩) roots
  treeBFS edges ids (2 * nodes.length + edges.length + 1) queue [] nodes

/-- treeLayout: the node list after the BFS. -/
def treeLayout (opts : ResolvedOptions α) (edges : List DiagramEdge)
    (nodes : List (DiagramNode α)) : List (DiagramNode α) :=
  (treeLayoutRun opts edges nodes).1

/-- Math.ceil(Math.sqrt n) on a natural number. -/
def ceilSqrt (n : ℕ) : ℕ :=
  if Nat.sqrt n * Nat.sqrt n = n then Nat.sqrt n else Nat.sqrt n + 1

/-- Math.ceil(n / cols) on natural numbers (cols positive in every use). -/
def ceilDiv (n cols : ℕ) : ℕ :=
  (n + cols - 1) / cols

/-- gridLayout: a roughly square row-major grid with 150 x 100 cell spacing
centered on the configured center. -/
def gridLayout (opts : ResolvedOptions α) (nodes : List (DiagramNode α)) :
    List (DiagramNode α) :=
  let cols := ceilSqrt nodes.length
  let rows := ceilDiv nodes.length cols
  let startX := opts.centerX - (((cols : α) - 1) * 150) / 2
  let startY := opts.centerY - (((rows : α) - 1) * 100) / 2
  mapIdxL (fun k node =>
    let row := k / cols
    let col := k % cols
    { node with position := ⟨startX + (col : α) * 150, startY + (row : α) * 100⟩ })
    nodes

/-- organicLayout: circular layout, then independent uniform jitter of
(rand - 0.5) * 30 on each coordinate (rand consumes the random stream in
evaluation order: x before y, node by node), then a fresh engine running 20
force-directed iterations with repulsion 500, attraction 0.05, damping 0.8. -/
def organicLayout (M : MathOracle α) (rand : ℕ → α) (opts : ResolvedOptions α)
    (edges : List DiagramEdge) (nodes : List (DiagramNode α)) : List (DiagramNode α) :=
  let circ := circularLayout M opts nodes
  let jittered := mapIdxL (fun k node =>
    { node with
      position := ⟨node.position.x + (rand (2 * k) - 1 / 2) * 30,
                   node.position.y + (rand (2 * k + 1) - 1 / 2) * 30⟩ }) circ
  let innerOpts := resolveOptions
    ({ algorithm := some "force", iterations := some 20, repulsion := some 500,
       attraction := some (5 / 100), damping := some (8 / 10) } : CustomLayoutOptions α)
  forceDirectedLayout M innerOpts edges jittered

/-- CustomLayoutEngine.layout: dispatch on the algorithm option; any value
other than the four specific algorithms runs the force-directed default. -/
def layout (M : MathOracle α) (rand : ℕ → α) (o : CustomLayoutOptions α)
    (nodes : List (DiagramNode α)) (edges : List DiagramEdge) : List (DiagramNode α) :=
  let opts := resolveOptions o
  if opts.algorithm = "circular" then circularLayout M opts nodes
  else if opts.algorithm = "tree" then treeLayout opts edges nodes
  else if opts.algorithm = "grid" then gridLayout opts nodes
  else if opts.algorithm = "organic" then organicLayout M rand opts edges nodes
  else forceDirectedLayout M opts edges nodes

end CustomLayoutEngine

/-! ## External-solver engines (dagre and elkjs wrappers) -/

/-- The graph handed to the dagre library: graph options, registered nodes
(id, width, height, label) and registered edges (source, target). -/
structure DagreGraph (α : Type) where
  rankdir : String
  nodesep : α
  ranksep : α
  edgesep : α
  align : String
  nodes : List (String × α × α × String)
  edges : List (String × String)

/-- The external dagre solve step: it may throw, and on success yields the
per-id coordinates read back via graph.node(id). -/
def DagreSolver (α : Type) := DagreGraph α → Except String (String → Option (Position α))

namespace DagreLayoutEngine

/-- The direction switch of DagreLayoutEngine.layout; unrecognized values
fall through to TB. -/
def mapDirection (d : String) : String :=
  if d = "top-bottom" ∨ d = "vertical" then "TB"
  else if d = "bottom-top" then "BT"
  else if d = "left-right" ∨ d = "horizontal" then "LR"
  else if d = "right-left" then "RL"
  else "TB"

/-- Graph construction of DagreLayoutEngine.layout: direction and spacing
options, then every node keyed by id with its dimensions, then every edge. -/
def toGraph (nodes : List (DiagramNode α)) (edges : List DiagramEdge)
    (config : LayoutConfig α) : DagreGraph α where
  rankdir := mapDirection config.direction
  nodesep := config.spacing.node
  ranksep := config.spacing.vertical
  edgesep := 50
  align := orFalsyStr config.alignment "UL"
  nodes := nodes.map fun n => (n.id, n.size.width, n.size.height, n.label)
  edges := edges.map fun e => (e.source, e.target)

/-- DagreLayoutEngine.layout: build the graph, run the solver (an exception
is NOT caught here and propagates), and read positions back, centering each
node on its anchor (x - width/2, y - height/2); a node the solver did not
position keeps its original record. -/
def layout (solve : DagreSolver α) (nodes : List (DiagramNode α))
    (edges : List DiagramEdge) (config : LayoutConfig α) :
    Except String (List (DiagramNode α)) :=
  match solve (toGraph nodes edges config) with
  | Except.error e => Except.error e
  | Except.ok posOf =>
    Except.ok (nodes.map fun n =>
      match posOf n.id with
      | some p => { n with position := ⟨p.x - n.size.width / 2, p.y - n.size.height / 2⟩ }
      | none => n)

/-- Bounding box plus centering offset of the layout result. -/
structure Bounds (α : Type) where
  width : α
  height : α
  offset : Position α

/-- DagreLayoutEngine.getBounds: min/max over node extents (the minima use
the positions, the maxima position plus size, matching the source), default
800 x 600 with zero offset on an empty list; the Infinity-seeded fold is
embedded by seeding with the first node. -/
def getBounds (nodes : List (DiagramNode α)) : Bounds α :=
  match nodes with
  | [] => ⟨800, 600, ⟨0, 0⟩⟩
  | n :: rest =>
    let minX := rest.foldl (fun m k => min m k.position.x) n.position.x
    let minY := rest.foldl (fun m k => min m k.position.y) n.position.y
    let maxX := rest.foldl (fun m k => max m (k.position.x + k.size.width))
      (n.position.x + n.size.width)
    let maxY := rest.foldl (fun m k => max m (k.position.y + k.size.height))
      (n.position.y + n.size.height)
    ⟨maxX - minX, maxY - minY, ⟨-minX + 50, -minY + 50⟩⟩

end DagreLayoutEngine

/-- The graph handed to the elkjs library: layered-algorithm options,
children (id, width, height, label) and edges (id, sources, targets). -/
structure ElkGraph (α : Type) where
  algorithm : String
  direction : String
  spacingNodeNode : α
  spacingBetweenLayers : α
  spacingEdgeNode : α
  spacingEdgeEdge : α
  children : List (String × α × α × String)
  edges : List (String × String × String)

/-- The external elk solve step (async in the source): may fail, on success
yields per-id coordinates for the children. -/
def ElkSolver (α : Type) := ElkGraph α → Except String (String → Option (Position α))

namespace ElkJSLayoutEngine

/-- The direction switch of ElkJSLayoutEngine.getElkDirection; unrecognized
values fall through to DOWN. -/
def mapDirection (d : String) : String :=
  if d = "top-bottom" ∨ d = "vertical" then "DOWN"
  else if d = "bottom-top" then "UP"
  else if d = "left-right" ∨ d = "horizontal" then "RIGHT"
  else if d = "right-left" then "LEFT"
  else "DOWN"

/-- Graph conversion of ElkJSLayoutEngine.layout (every edge is forwarded,
the wrapper itself filters nothing). -/
def toGraph (nodes : List (DiagramNode α)) (edges : List DiagramEdge)
    (config : LayoutConfig α) : ElkGraph α where
  algorithm := "layered"
  direction := mapDirection config.direction
  spacingNodeNode := config.spacing.node
  spacingBetweenLayers := config.spacing.vertical
  spacingEdgeNode := 20
  spacingEdgeEdge := 10
  children := nodes.map fun n => (n.id, n.size.width, n.size.height, n.label)
  edges := edges.map fun e => (e.id, e.source, e.target)

/-- ElkJSLayoutEngine.layout: run the solver inside try/catch; on failure
log and fall back to the original node records; on success take each
reported coordinate pair as the new top-left position, keeping any node the
solver did not position. -/
def layout (solve : ElkSolver α) (nodes : List (DiagramNode α))
    (edges : List DiagramEdge) (config : LayoutConfig α) : List (DiagramNode α) :=
  match solve (toGraph nodes edges config) with
  | Except.error _ => nodes
  | Except.ok posOf =>
    nodes.map fun n =>
      match posOf n.id with
      | some p => { n with position := p }
      | none => n

/-- ElkJSLayoutEngine.getBounds: textually the same computation as the dagre
engine's getBounds. -/
def getBounds (nodes : List (DiagramNode α)) : DagreLayoutEngine.Bounds α :=
  match nodes with
  | [] => ⟨800, 600, ⟨0, 0⟩⟩
  | n :: rest =>
    let minX := rest.foldl (fun m k => min m k.position.x) n.position.x
    let minY := rest.foldl (fun m k => min m k.position.y) n.position.y
    let maxX := rest.foldl (fun m k => max m (k.position.x + k.size.width))
      (n.position.x + n.size.width)
    let maxY := rest.foldl (fun m k => max m (k.position.y + k.size.height))
      (n.position.y + n.size.height)
    ⟨maxX - minX, maxY - minY, ⟨-minX + 50, -minY + 50⟩⟩

end ElkJSLayoutEngine

/-! ## Layout manager, engine dispatch with bounds and centering -/

/-- The engine selector of LayoutManager.applyLayout. -/
inductive LayoutEngineType where
  | dagre
  | elkjs
  | none
deriving DecidableEq

namespace LayoutManager

/-- LayoutManager.applyLayout: identity when the engine is none or there are
no nodes; otherwise run the chosen engine, compute bounds over its output,
and translate every node by the centering offset, returning a fresh diagram
record.  A dagre solver exception propagates (the manager does not catch),
which the Except value records. -/
def applyLayout (dagreSolve : DagreSolver α) (elkSolve : ElkSolver α)
    (data : SmartDiagramData α) (engine : LayoutEngineType) :
    Except String (SmartDiagramData α) :=
  if engine = LayoutEngineType.none ∨ data.nodes.length = 0 then
    Except.ok data
  else
    let layoutedE : Except String (List (DiagramNode α)) :=
      match engine with
      | LayoutEngineType.dagre =>
        DagreLayoutEngine.layout dagreSolve data.nodes data.edges data.layout
      | LayoutEngineType.elkjs =>
        Except.ok (ElkJSLayoutEngine.layout elkSolve data.nodes data.edges data.layout)
      | LayoutEngineType.none => Except.ok data.nodes
    match layoutedE with
    | Except.error e => Except.error e
    | Except.ok layoutedNodes =>
      let bounds :=
        match engine with
        | LayoutEngineType.dagre => DagreLayoutEngine.getBounds layoutedNodes
        | _ => ElkJSLayoutEngine.getBounds layoutedNodes
      Except.ok { data with
        nodes := layoutedNodes.map fun node =>
          { node with
            position := ⟨node.position.x + bounds.offset.x,
                         node.position.y + bounds.offset.y⟩ } }

end LayoutManager

/-! ## Object-level semantics of the custom engine's node handling

The pure functions above give the value semantics of the arrays the engine
returns.  The custom engine, however, copies only the array
(`this.nodes = [...nodes]`, and again `const nodes = [...this.nodes]`): the
node objects, and in particular their position objects, stay shared with
the caller, and the algorithms assign `node.position.x = ...` through those
shared references.  This section models that reference semantics: a store
of Position objects, node records holding references (indices) into it, and
the grid algorithm's writes landing in the store the caller reads. -/

/-- A heap of Position objects. -/
abbrev PositionStore (α : Type) := List (Position α)

/-- A node object as the caller holds it: the position field is a reference
into the store. -/
structure NodeObj (α : Type) where
  id : String
  posRef : ℕ
  size : Size α

/-- The spread `[...nodes]`: a fresh array containing the same references. -/
def arrayCopy (nodes : List (NodeObj α)) : List (NodeObj α) := nodes

/-- gridLayout under object semantics: iterate over the copied array and
write each grid position through the node's shared position reference. -/
def gridLayoutJS (nodes : List (NodeObj α)) (opts : ResolvedOptions α)
    (store : PositionStore α) : PositionStore α :=
  let ns := arrayCopy nodes
  let cols := CustomLayoutEngine.ceilSqrt ns.length
  let rows := CustomLayoutEngine.ceilDiv ns.length cols
  let startX := opts.centerX - (((cols : α) - 1) * 150) / 2
  let startY := opts.centerY - (((rows : α) - 1) * 100) / 2
  (mapIdxL (fun k node => (k, node)) ns).foldl
    (fun st p =>
      updateAt st p.2.posRef (fun _ =>
        ⟨startX + ((p.1 % cols : ℕ) : α) * 150, startY + ((p.1 / cols : ℕ) : α) * 100⟩))
    store

/-- What the caller's own node objects report once a layout call returns. -/
def callerPositions (nodes : List (NodeObj α)) (store : PositionStore α) :
    List (Option (Position α)) :=
  nodes.map (fun n => store[n.posRef]?)

/-! ## Derived notions used to state the claims -/

/-- Minimum x over all node extents: each node spans from position.x to
position.x + width, so its leftmost extent is the smaller of the two. -/
def minExtentX (nodes : List (DiagramNode α)) : Option α :=
  match nodes.map (fun n => min n.position.x (n.position.x + n.size.width)) with
  | [] => none
  | a :: l => some (l.foldl min a)

/-- Minimum y over all node extents. -/
def minExtentY (nodes : List (DiagramNode α)) : Option α :=
  match nodes.map (fun n => min n.position.y (n.position.y + n.size.height)) with
  | [] => none
  | a :: l => some (l.foldl min a)

/-- Everything a layout pass must preserve about a node: its identifier and
its size. -/
def nodeKey (n : DiagramNode α) : String × Size α :=
  (n.id, n.size)

/-- One step of the tree layout's source-to-target adjacency, restricted to
children that exist as nodes (the BFS only enqueues ids the node map holds). -/
def treeStep (nodes : List (DiagramNode α)) (edges : List DiagramEdge)
    (a b : String) : Prop :=
  b ∈ CustomLayoutEngine.adjOf edges a ∧ b ∈ nodes.map (fun n => n.id)

/-- The detected roots of the tree layout, as ids. -/
def rootIds (nodes : List (DiagramNode α)) (edges : List DiagramEdge) : List String :=
  (CustomLayoutEngine.treeRootIdxs nodes edges).filterMap
    (fun i => (nodes.map (fun n => n.id))[i]?)

/-- Reachability from a detected root through the adjacency list. -/
def ReachTree (nodes : List (DiagramNode α)) (edges : List DiagramEdge)
    (z : String) : Prop :=
  ∃ r ∈ rootIds nodes edges, Relation.ReflTransGen (treeStep nodes edges) r z

/-- The adjacency step expressed on an id list (the BFS works with the id
list of the node array; treeStep nodes edges coincides with
idStep edges (nodes.map id)). -/
def idStep (edges : List DiagramEdge) (ids : List String) (a b : String) : Prop :=
  b ∈ CustomLayoutEngine.adjOf edges a ∧ b ∈ ids

/-- Termination measure of the BFS loop: the queue length plus, for every
distinct id not yet visited, one dequeue step and one enqueue slot per
outgoing adjacency entry. -/
def bfsPotential (edges : List DiagramEdge) (ids visited : List String)
    (q : List (CustomLayoutEngine.QItem α)) : ℕ :=
  q.length + ((ids.dedup.filter (fun a => ¬ a ∈ visited)).map
    (fun a => 1 + (CustomLayoutEngine.adjOf edges a).length)).sum

/-- Math.atan2 on the reals (quadrant-correct arctangent). -/
noncomputable def atan2R (y x : ℝ) : ℝ :=
  if 0 < x then Real.arctan (y / x)
  else if x < 0 then
    (if 0 ≤ y then Real.arctan (y / x) + Real.pi else Real.arctan (y / x) - Real.pi)
  else if 0 < y then Real.pi / 2
  else if y < 0 then -(Real.pi / 2)
  else 0

/-- The genuine Math object over the reals. -/
noncomputable def realOracle : MathOracle ℝ where
  pi := Real.pi
  cosf := Real.cos
  sinf := Real.sin
  atan2f := atan2R
  sqrtf := Real.sqrt

/-! ## Concrete fixtures for witnesses and counterexamples -/

/-- A minimal layout configuration. -/
def cfg0 : LayoutConfig ℚ :=
  { type := "flowchart", direction := "top-bottom", spacing := ⟨50, 50, 50⟩ }

/-- A node with id A at the origin. -/
def nA0 : DiagramNode ℚ := ⟨"A", ⟨0, 0⟩, ⟨10, 10⟩, ""⟩

/-- A node with id B at (7, 7). -/
def nB0 : DiagramNode ℚ := ⟨"B", ⟨7, 7⟩, ⟨10, 10⟩, ""⟩

/-- An edge from A to B. -/
def edgeAB : DiagramEdge := ⟨"e1", "A", "B"⟩

/-- An edge whose source id matches no node. -/
def ghostEdge : DiagramEdge := ⟨"g", "ghost", "B"⟩

/-- A self-loop on B. -/
def loopB : DiagramEdge := ⟨"l", "B", "B"⟩

/-- A dagre solver that always succeeds placing everything at (100, 100). -/
def okDagreQ : DagreSolver ℚ := fun _ => Except.ok (fun _ => some ⟨100, 100⟩)

/-- A dagre solver that throws. -/
def failDagreQ : DagreSolver ℚ := fun _ => Except.error "solver failure"

/-- An elk solver that always succeeds placing everything at (100, 100). -/
def okElkQ : ElkSolver ℚ := fun _ => Except.ok (fun _ => some ⟨100, 100⟩)

/-- An elk solver that throws. -/
def failElkQ : ElkSolver ℚ := fun _ => Except.error "solver failure"

/-- A one-node diagram. -/
def dataA : SmartDiagramData ℚ := ⟨[nA0], [], cfg0⟩

/-- What applyLayout produces on dataA with the constant dagre solver: the
solver anchors A at (100, 100), the engine centers it to (95, 95), and the
manager's offset (-95 + 50, -95 + 50) lands it at (50, 50). -/
def outA : SmartDiagramData ℚ := ⟨[⟨"A", ⟨50, 50⟩, ⟨10, 10⟩, ""⟩], [], cfg0⟩

/-- The caller's node object for the mutation exhibit: its position field
references slot 0 of the store. -/
def objA : NodeObj ℚ := ⟨"A", 0, ⟨100, 50⟩⟩

/-- Fully defaulted engine options over the rationals. -/
def optsQ0 : ResolvedOptions ℚ := resolveOptions {}

/-- A single real-valued node for the circular-layout witness. -/
def nR0 : DiagramNode ℝ := ⟨"R", ⟨0, 0⟩, ⟨10, 10⟩, ""⟩

/-- An arbitrary stand-in Math oracle over the rationals; the theorems that
use it hold for every oracle. -/
def oracleQ : MathOracle ℚ := ⟨3, id, id, fun _ _ => 0, id⟩

/-- An arbitrary stand-in random stream over the rationals. -/
def randQ : ℕ → ℚ := fun _ => 0

/-- Fully defaulted engine options over the reals. -/
noncomputable def optsR0 : ResolvedOptions ℝ := resolveOptions {}

/-! ## Claim C9: the segment-intersection primitive -/

/-- C9: the segment-intersection primitive returns no intersection whenever
the denominator determinant has absolute value below 1e-10 (parallel
segments), and on the crossing segments (0,0)-(10,10) and (0,10)-(10,0) it
returns exactly the point (5,5). -/
theorem C9_segment_intersection :
    (∀ p1 p2 p3 p4 : Position ℚ,
      abs (GeometryUtils.intersectionDenom p1 p2 p3 p4) < 1 / 10 ^ 10 →
      GeometryUtils.getLineIntersection p1 p2 p3 p4 = none)
    ∧ GeometryUtils.getLineIntersection (⟨0, 0⟩ : Position ℚ) ⟨10, 10⟩ ⟨0, 10⟩ ⟨10, 0⟩ =
      some ⟨5, 5⟩ := by
  constructor
  · intro p1 p2 p3 p4 h
    simp only [GeometryUtils.intersectionDenom] at h
    simp only [GeometryUtils.getLineIntersection]
    rw [if_pos h]
  · norm_num [GeometryUtils.getLineIntersection, Position.ext_iff]

/-- Witness for C9: the parallel horizontal segments (0,0)-(1,0) and
(0,1)-(1,1) have determinant 0 and produce no intersection. -/
theorem C9_witness :
    GeometryUtils.getLineIntersection (⟨0, 0⟩ : Position ℚ) ⟨1, 0⟩ ⟨0, 1⟩ ⟨1, 1⟩ = none :=
  C9_segment_intersection.1 ⟨0, 0⟩ ⟨1, 0⟩ ⟨0, 1⟩ ⟨1, 1⟩
    (by norm_num [GeometryUtils.intersectionDenom])

/-! ## Claim C6: applyLayout is the identity for engine none or no nodes -/

/-- C6: for every diagram value, if the node list is empty or the engine
choice is none, LayoutManager.applyLayout returns the input data unchanged. -/
theorem C6_applyLayout_identity (dagreSolve : DagreSolver α) (elkSolve : ElkSolver α)
    (data : SmartDiagramData α) (engine : LayoutEngineType)
    (h : engine = LayoutEngineType.none ∨ data.nodes = []) :
    LayoutManager.applyLayout dagreSolve elkSolve data engine = Except.ok data := by
  unfold LayoutManager.applyLayout
  rw [if_pos]
  rcases h with h | h
  · exact Or.inl h
  · exact Or.inr (by simp [h])

/-- Witness for C6: a concrete empty-node diagram with the dagre engine
comes back unchanged. -/
theorem C6_witness :
    LayoutManager.applyLayout okDagreQ okElkQ ⟨[], [], cfg0⟩ LayoutEngineType.dagre =
      Except.ok ⟨[], [], cfg0⟩ :=
  C6_applyLayout_identity okDagreQ okElkQ ⟨[], [], cfg0⟩ LayoutEngineType.dagre (Or.inr rfl)

/-! ## Claim C3: failure semantics of the two external-solver engines -/

/-- Counterexample to C3: when the dagre solve step throws, the dagre
engine's layout does NOT return the original nodes — the error propagates
to the caller (there is no try/catch in DagreLayoutEngine.layout). -/
theorem C3_counterexample :
    DagreLayoutEngine.layout failDagreQ [nA0] [] cfg0 = Except.error "solver failure"
    ∧ ∀ ns : List (DiagramNode ℚ), DagreLayoutEngine.layout failDagreQ [nA0] [] cfg0 ≠
      Except.ok ns := by
  constructor
  · rfl
  · intro ns h
    simp [DagreLayoutEngine.layout, failDagreQ] at h

/-- C3 as amended: the elk engine catches a solver failure and returns the
input nodes with their original positions, while the dagre engine has no
handler and a solver exception propagates to the caller. -/
theorem C3_amended_fail_open (dagreSolve : DagreSolver α) (elkSolve : ElkSolver α)
    (nodes : List (DiagramNode α)) (edges : List DiagramEdge) (config : LayoutConfig α)
    (err : String)
    (hd : dagreSolve (DagreLayoutEngine.toGraph nodes edges config) = Except.error err)
    (he : elkSolve (ElkJSLayoutEngine.toGraph nodes edges config) = Except.error err) :
    DagreLayoutEngine.layout dagreSolve nodes edges config = Except.error err
    ∧ ElkJSLayoutEngine.layout elkSolve nodes edges config = nodes := by
  constructor
  · unfold DagreLayoutEngine.layout
    rw [hd]
  · unfold ElkJSLayoutEngine.layout
    rw [he]

/-- Witness for the amended C3 at a concrete diagram and failing solvers. -/
theorem C3_amended_witness :
    DagreLayoutEngine.layout failDagreQ [nB0] [edgeAB] cfg0 = Except.error "solver failure"
    ∧ ElkJSLayoutEngine.layout failElkQ [nB0] [edgeAB] cfg0 = [nB0] :=
  C3_amended_fail_open failDagreQ failElkQ [nB0] [edgeAB] cfg0 "solver failure" rfl rfl

/-! ## Claim C2: engines are non-destructive to their inputs -/

/-- Exhibit for C2 (a code bug): the custom engine shallow-copies only the
node array, so a layout call writes the new coordinates through the shared
position objects and the caller's own node moves.  Here the caller's single
node sits at (0,0); after the engine runs the grid algorithm the caller's
node object reports (400, 300). -/
theorem C2_mutation_exhibit :
    callerPositions [objA] (gridLayoutJS [objA] optsQ0 [⟨0, 0⟩]) = [some ⟨400, 300⟩]
    ∧ callerPositions [objA] [⟨0, 0⟩] = [some ⟨0, 0⟩]
    ∧ some (⟨400, 300⟩ : Position ℚ) ≠ some ⟨0, 0⟩ := by
  refine ⟨?_, by norm_num [callerPositions, objA], by norm_num [Position.ext_iff]⟩
  norm_num [callerPositions, gridLayoutJS, arrayCopy, objA, optsQ0, resolveOptions,
    orFalsy, orFalsyNat, orFalsyStr, CustomLayoutEngine.ceilSqrt, CustomLayoutEngine.ceilDiv,
    mapIdxL, mapIdxGo, updateAt, Position.ext_iff]

/-! ## Claim C4: dangling edges -/

/-- Counterexample to C4: an edge whose source id matches no node is NOT
ignored by the tree layout.  With nodes A and B and the single edge
ghost -> B (ghost is no node), B counts as having an incoming edge, so only
A is detected as a root and B keeps its old position; with the edge removed
both A and B are roots and both are repositioned.  The two results differ. -/
theorem C4_counterexample :
    CustomLayoutEngine.treeLayout optsQ0 [ghostEdge] [nA0, nB0] ≠
      CustomLayoutEngine.treeLayout optsQ0 [] [nA0, nB0] := by
  norm_num +decide [CustomLayoutEngine.treeLayout, CustomLayoutEngine.treeLayoutRun,
    CustomLayoutEngine.treeRootIdxs, CustomLayoutEngine.treeBFS, CustomLayoutEngine.adjOf,
    CustomLayoutEngine.lastIdxOf, CustomLayoutEngine.lastIdxGo, updateAt,
    optsQ0, resolveOptions, orFalsy, orFalsyNat, orFalsyStr, nA0, nB0, ghostEdge,
    mapIdxL, mapIdxGo, filterMapIdxL, filterMapIdxGo,
    List.filter, DiagramNode.ext_iff, Position.ext_iff]

/-! ## Helper lemmas: lengths, key preservation, list bookkeeping -/

theorem updateAt_length {β : Type} (l : List β) (i : ℕ) (g : β → β) :
    (updateAt l i g).length = l.length := by
  unfold updateAt
  cases h : l[i]? with
  | none => rfl
  | some v => simp

theorem foldl_length_preserved {β γ : Type} (step : List β → γ → List β)
    (h : ∀ acc c, (step acc c).length = acc.length) (l : List γ) (init : List β) :
    (l.foldl step init).length = init.length := by
  induction l generalizing init with
  | nil => rfl
  | cons c t ih => rw [List.foldl_cons, ih, h]

theorem applyRepulsion_length (M : MathOracle α) (rep : α) (nodes : List (DiagramNode α))
    (fs : List (Position α)) (i j : ℕ) :
    (CustomLayoutEngine.applyRepulsion M rep nodes fs i j).length = fs.length := by
  unfold CustomLayoutEngine.applyRepulsion
  cases nodes[i]? <;> cases nodes[j]? <;> simp [updateAt_length]

theorem repulsionPass_length (M : MathOracle α) (rep : α) (nodes : List (DiagramNode α))
    (fs : List (Position α)) :
    (CustomLayoutEngine.repulsionPass M rep nodes fs).length = fs.length := by
  unfold CustomLayoutEngine.repulsionPass
  apply foldl_length_preserved
  intro acc i
  apply foldl_length_preserved
  intro acc2 j
  exact applyRepulsion_length M rep nodes acc2 i j

theorem applyAttraction_length (M : MathOracle α) (att : α) (nodes : List (DiagramNode α))
    (fs : List (Position α)) (e : DiagramEdge) :
    (CustomLayoutEngine.applyAttraction M att nodes fs e).length = fs.length := by
  unfold CustomLayoutEngine.applyAttraction
  cases nodes.findIdx? (fun n => n.id = e.source) <;>
    cases nodes.findIdx? (fun n => n.id = e.target) <;>
    try rfl
  rename_i si ti
  cases hsi : nodes[si]? <;> cases hti : nodes[ti]? <;>
    simp [hsi, hti, updateAt_length]

theorem zip_map_key {β π : Type} (g : DiagramNode α × β → DiagramNode α)
    (proj : DiagramNode α → π) (hg : ∀ p, proj (g p) = proj p.1)
    (ns : List (DiagramNode α)) (fs : List β) (h : fs.length = ns.length) :
    ((ns.zip fs).map g).map proj = ns.map proj := by
  induction ns generalizing fs with
  | nil => rfl
  | cons n t ih =>
    cases fs with
    | nil => simp at h
    | cons f ft =>
      simp only [List.zip_cons_cons, List.map_cons, hg]
      rw [ih ft (by simpa using h)]

theorem mapIdxGo_key {β π : Type} (f : ℕ → β → β) (proj : β → π)
    (hf : ∀ k b, proj (f k b) = proj b) (l : List β) :
    ∀ k : ℕ, (mapIdxGo f k l).map proj = l.map proj := by
  induction l with
  | nil => intro k; rfl
  | cons b t ih =>
    intro k
    simp only [mapIdxGo, List.map_cons, hf]
    rw [ih (k + 1)]

theorem set_self_of_getElem {β : Type} (l : List β) (i : ℕ) (x : β) (h : l[i]? = some x) :
    l.set i x = l := by
  apply List.ext_getElem?
  intro j
  by_cases hj : i = j
  · subst hj
    have hi : i < l.length := by
      rcases List.getElem?_eq_some_iff.mp h with ⟨hlt, _⟩
      exact hlt
    rw [List.getElem?_set_self hi, h]
  · rw [List.getElem?_set_ne hj]

theorem map_key_set {π : Type} (proj : DiagramNode α → π) (ns : List (DiagramNode α))
    (i : ℕ) (v w : DiagramNode α) (hw : ns[i]? = some w) (hv : proj v = proj w) :
    (ns.set i v).map proj = ns.map proj := by
  rw [List.map_set]
  apply set_self_of_getElem
  rw [List.getElem?_map, hw]
  simp [hv]

theorem forceStep_key (M : MathOracle α) (opts : ResolvedOptions α)
    (edges : List DiagramEdge) (ns : List (DiagramNode α)) :
    (CustomLayoutEngine.forceStep M opts edges ns).map nodeKey = ns.map nodeKey := by
  simp only [CustomLayoutEngine.forceStep]
  apply zip_map_key
  · intro p
    rfl
  · rw [foldl_length_preserved _ (fun acc c => applyAttraction_length M opts.attraction ns acc c),
      repulsionPass_length, List.length_map]

theorem forceIter_key (M : MathOracle α) (opts : ResolvedOptions α)
    (edges : List DiagramEdge) (k : ℕ) (ns : List (DiagramNode α)) :
    ((CustomLayoutEngine.forceStep M opts edges)^[k] ns).map nodeKey = ns.map nodeKey := by
  induction k generalizing ns with
  | zero => rfl
  | succ k ih => rw [Function.iterate_succ_apply, ih, forceStep_key]

theorem forceDirectedLayout_key (M : MathOracle α) (opts : ResolvedOptions α)
    (edges : List DiagramEdge) (ns : List (DiagramNode α)) :
    (CustomLayoutEngine.forceDirectedLayout M opts edges ns).map nodeKey = ns.map nodeKey :=
  forceIter_key M opts edges opts.iterations ns

/-! ## C4 amended: the force-directed layout ignores dangling edges -/

theorem applyAttraction_dangling (M : MathOracle α) (att : α)
    (nodes : List (DiagramNode α)) (fs : List (Position α)) (e : DiagramEdge)
    (h : (∀ n ∈ nodes, ¬ n.id = e.source) ∨ (∀ n ∈ nodes, ¬ n.id = e.target)) :
    CustomLayoutEngine.applyAttraction M att nodes fs e = fs := by
  unfold CustomLayoutEngine.applyAttraction
  rcases h with h | h
  · have hs : nodes.findIdx? (fun n => n.id = e.source) = none := by
      rw [List.findIdx?_eq_none_iff]
      intro x hx
      simpa using h x hx
    rw [hs]
  · have ht : nodes.findIdx? (fun n => n.id = e.target) = none := by
      rw [List.findIdx?_eq_none_iff]
      intro x hx
      simpa using h x hx
    rw [ht]
    cases nodes.findIdx? (fun n => n.id = e.source) <;> rfl

theorem forceStep_dangling (M : MathOracle α) (opts : ResolvedOptions α) (e : DiagramEdge)
    (edges : List DiagramEdge) (ns : List (DiagramNode α))
    (h : (∀ n ∈ ns, ¬ n.id = e.source) ∨ (∀ n ∈ ns, ¬ n.id = e.target)) :
    CustomLayoutEngine.forceStep M opts (e :: edges) ns =
      CustomLayoutEngine.forceStep M opts edges ns := by
  simp only [CustomLayoutEngine.forceStep]
  rw [List.foldl_cons, applyAttraction_dangling M opts.attraction ns _ e h]

theorem mem_id_of_key_eq {ns ms : List (DiagramNode α)}
    (hk : ns.map nodeKey = ms.map nodeKey) {n : DiagramNode α} (hn : n ∈ ns) :
    ∃ m ∈ ms, m.id = n.id := by
  have : nodeKey n ∈ ms.map nodeKey := by
    rw [← hk]
    exact List.mem_map_of_mem nodeKey hn
  rcases List.mem_map.mp this with ⟨m, hm, hkey⟩
  exact ⟨m, hm, congrArg Prod.fst hkey⟩

/-- C4, amended: a dangling edge (source id or target id matching no node)
is ignored by the force-directed layout: the result equals the layout of the
same nodes with that edge removed.  (As the counterexample shows, the claim
fails for the tree layout, where a dangling edge's target still counts as
having an incoming edge for root detection and a dangling child still
occupies a sibling slot.) -/
theorem C4_amended_force_ignores_dangling (M : MathOracle α) (opts : ResolvedOptions α)
    (e : DiagramEdge) (edges : List DiagramEdge) (nodes : List (DiagramNode α))
    (h : (∀ n ∈ nodes, ¬ n.id = e.source) ∨ (∀ n ∈ nodes, ¬ n.id = e.target)) :
    CustomLayoutEngine.forceDirectedLayout M opts (e :: edges) nodes =
      CustomLayoutEngine.forceDirectedLayout M opts edges nodes := by
  unfold CustomLayoutEngine.forceDirectedLayout
  generalize opts.iterations = k
  induction k generalizing nodes with
  | zero => rfl
  | succ k ih =>
    rw [Function.iterate_succ_apply, Function.iterate_succ_apply,
      forceStep_dangling M opts e edges nodes h]
    apply ih
    rcases h with h | h
    · refine Or.inl fun n hn hne => ?_
      rcases mem_id_of_key_eq (forceStep_key M opts edges nodes) hn with ⟨m, hm, hid⟩
      exact h m hm (hid ▸ hne)
    · refine Or.inr fun n hn hne => ?_
      rcases mem_id_of_key_eq (forceStep_key M opts edges nodes) hn with ⟨m, hm, hid⟩
      exact h m hm (hid ▸ hne)

/-- Witness for the amended C4: with nodes A and B and the dangling edge
ghost -> A-less source, one force-directed pass gives identical results with
and without the edge. -/
theorem C4_amended_witness :
    CustomLayoutEngine.forceDirectedLayout oracleQ optsQ0 [ghostEdge] [nA0, nB0] =
      CustomLayoutEngine.forceDirectedLayout oracleQ optsQ0 [] [nA0, nB0] :=
  C4_amended_force_ignores_dangling oracleQ optsQ0 ghostEdge [] [nA0, nB0]
    (Or.inl (by decide))

/-! ## Key preservation for the remaining algorithms and the manager -/

theorem map_key_of_pointwise {π : Type} (proj : DiagramNode α → π)
    (f : DiagramNode α → DiagramNode α) (hf : ∀ n, proj (f n) = proj n)
    (ns : List (DiagramNode α)) : (ns.map f).map proj = ns.map proj := by
  rw [List.map_map]
  exact List.map_congr_left fun n _ => hf n

theorem circularLayout_key (M : MathOracle α) (opts : ResolvedOptions α)
    (ns : List (DiagramNode α)) :
    (CustomLayoutEngine.circularLayout M opts ns).map nodeKey = ns.map nodeKey := by
  simp only [CustomLayoutEngine.circularLayout, mapIdxL]
  apply mapIdxGo_key
  intro k b
  rfl

theorem gridLayout_key (opts : ResolvedOptions α) (ns : List (DiagramNode α)) :
    (CustomLayoutEngine.gridLayout opts ns).map nodeKey = ns.map nodeKey := by
  simp only [CustomLayoutEngine.gridLayout, mapIdxL]
  apply mapIdxGo_key
  intro k b
  rfl

theorem treeBFS_key (edges : List DiagramEdge) (ids : List String) (fuel : ℕ)
    (q : List (CustomLayoutEngine.QItem α)) (visited : List String)
    (ns : List (DiagramNode α)) :
    ((CustomLayoutEngine.treeBFS edges ids fuel q visited ns).1).map nodeKey =
      ns.map nodeKey := by
  induction fuel generalizing q visited ns with
  | zero => rfl
  | succ fuel ih =>
    cases q with
    | nil => rfl
    | cons item rest =>
      simp only [CustomLayoutEngine.treeBFS]
      cases hn : ns[item.idx]? with
      | none => exact ih rest visited ns
      | some node =>
        by_cases hv : node.id ∈ visited
        · simp only [if_pos hv]
          exact ih rest visited ns
        · simp only [if_neg hv]
          rw [ih]
          exact map_key_set nodeKey ns item.idx _ node hn rfl

theorem treeLayout_key (opts : ResolvedOptions α) (edges : List DiagramEdge)
    (ns : List (DiagramNode α)) :
    (CustomLayoutEngine.treeLayout opts edges ns).map nodeKey = ns.map nodeKey := by
  simp only [CustomLayoutEngine.treeLayout, CustomLayoutEngine.treeLayoutRun]
  exact treeBFS_key _ _ _ _ _ ns

theorem organicLayout_key (M : MathOracle α) (rand : ℕ → α) (opts : ResolvedOptions α)
    (edges : List DiagramEdge) (ns : List (DiagramNode α)) :
    (CustomLayoutEngine.organicLayout M rand opts edges ns).map nodeKey = ns.map nodeKey := by
  simp only [CustomLayoutEngine.organicLayout, mapIdxL]
  rw [forceDirectedLayout_key]
  refine Eq.trans ?_ (circularLayout_key M opts ns)
  apply mapIdxGo_key
  intro k b
  rfl

theorem customLayout_key (M : MathOracle α) (rand : ℕ → α) (o : CustomLayoutOptions α)
    (ns : List (DiagramNode α)) (edges : List DiagramEdge) :
    (CustomLayoutEngine.layout M rand o ns edges).map nodeKey = ns.map nodeKey := by
  simp only [CustomLayoutEngine.layout]
  split_ifs
  · exact circularLayout_key M (resolveOptions o) ns
  · exact treeLayout_key (resolveOptions o) edges ns
  · exact gridLayout_key (resolveOptions o) ns
  · exact organicLayout_key M rand (resolveOptions o) edges ns
  · exact forceDirectedLayout_key M (resolveOptions o) edges ns

theorem dagreLayout_key (solve : DagreSolver α) (ns : List (DiagramNode α))
    (edges : List DiagramEdge) (config : LayoutConfig α) (out : List (DiagramNode α))
    (h : DagreLayoutEngine.layout solve ns edges config = Except.ok out) :
    out.map nodeKey = ns.map nodeKey := by
  unfold DagreLayoutEngine.layout at h
  cases hs : solve (DagreLayoutEngine.toGraph ns edges config) with
  | error e => rw [hs] at h; cases h
  | ok posOf =>
    rw [hs] at h
    cases h
    apply map_key_of_pointwise
    intro n
    cases posOf n.id <;> rfl

theorem elkLayout_key (solve : ElkSolver α) (ns : List (DiagramNode α))
    (edges : List DiagramEdge) (config : LayoutConfig α) :
    (ElkJSLayoutEngine.layout solve ns edges config).map nodeKey = ns.map nodeKey := by
  unfold ElkJSLayoutEngine.layout
  cases hs : solve (ElkJSLayoutEngine.toGraph ns edges config) with
  | error e => rfl
  | ok posOf =>
    apply map_key_of_pointwise
    intro n
    cases posOf n.id <;> rfl

theorem applyLayout_shape (dagreSolve : DagreSolver α) (elkSolve : ElkSolver α)
    (data : SmartDiagramData α) (engine : LayoutEngineType) (out : SmartDiagramData α)
    (hout : LayoutManager.applyLayout dagreSolve elkSolve data engine = Except.ok out) :
    out.nodes.map nodeKey = data.nodes.map nodeKey ∧ out.edges = data.edges ∧
      out.layout = data.layout := by
  unfold LayoutManager.applyLayout at hout
  by_cases hguard : engine = LayoutEngineType.none ∨ data.nodes.length = 0
  · rw [if_pos hguard] at hout
    cases hout
    exact ⟨rfl, rfl, rfl⟩
  · rw [if_neg hguard] at hout
    simp only [] at hout
    cases engine with
    | dagre =>
      cases hlay : DagreLayoutEngine.layout dagreSolve data.nodes data.edges data.layout with
      | error e => rw [hlay] at hout; cases hout
      | ok layouted =>
        rw [hlay] at hout
        simp only [] at hout
        cases hout
        refine ⟨?_, rfl, rfl⟩
        refine Eq.trans ?_ (dagreLayout_key dagreSolve data.nodes data.edges data.layout layouted hlay)
        apply map_key_of_pointwise
        intro n
        rfl
    | elkjs =>
      simp only [] at hout
      cases hout
      refine ⟨?_, rfl, rfl⟩
      refine Eq.trans ?_ (elkLayout_key elkSolve data.nodes data.edges data.layout)
      apply map_key_of_pointwise
      intro n
      rfl
    | none => exact absurd (Or.inl rfl) hguard

/-! ## Claim C5: layout preserves everything except positions -/

/-- C5: every layout operation preserves everything except positions.  The
custom engine's layout (hence each of the five algorithms, whichever the
options select, for any oracle and random stream) and the manager's
applyLayout keep the node ids in order, keep every node's width and height,
keep the node count, and applyLayout returns the edge list untouched. -/
theorem C5_preserves_identity (M : MathOracle α) (rand : ℕ → α)
    (o : CustomLayoutOptions α) (nodes : List (DiagramNode α)) (edges : List DiagramEdge)
    (dagreSolve : DagreSolver α) (elkSolve : ElkSolver α) (data : SmartDiagramData α)
    (engine : LayoutEngineType) (out : SmartDiagramData α)
    (hout : LayoutManager.applyLayout dagreSolve elkSolve data engine = Except.ok out) :
    (CustomLayoutEngine.layout M rand o nodes edges).map (fun n => n.id) =
      nodes.map (fun n => n.id)
    ∧ (CustomLayoutEngine.layout M rand o nodes edges).map (fun n => n.size) =
      nodes.map (fun n => n.size)
    ∧ (CustomLayoutEngine.layout M rand o nodes edges).length = nodes.length
    ∧ out.nodes.map (fun n => n.id) = data.nodes.map (fun n => n.id)
    ∧ out.nodes.map (fun n => n.size) = data.nodes.map (fun n => n.size)
    ∧ out.nodes.length = data.nodes.length
    ∧ out.edges = data.edges := by
  have hc := customLayout_key M rand o nodes edges
  have hm := applyLayout_shape dagreSolve elkSolve data engine out hout
  have hcid := congrArg (List.map Prod.fst) hc
  have hcsz := congrArg (List.map Prod.snd) hc
  have hclen := congrArg List.length hc
  have hmid := congrArg (List.map Prod.fst) hm.1
  have hmsz := congrArg (List.map Prod.snd) hm.1
  have hmlen := congrArg List.length hm.1
  simp only [List.map_map, List.length_map] at hcid hcsz hclen hmid hmsz hmlen
  exact ⟨hcid, hcsz, hclen, hmid, hmsz, hmlen, hm.2.1⟩

/-- Witness for C5 at a concrete grid-layout call and a concrete dagre
applyLayout run. -/
theorem C5_witness :
    (CustomLayoutEngine.layout oracleQ randQ { algorithm := some "grid" } [nA0, nB0]
        [edgeAB]).map (fun n => n.id) = [nA0, nB0].map (fun n => n.id)
    ∧ (CustomLayoutEngine.layout oracleQ randQ { algorithm := some "grid" } [nA0, nB0]
        [edgeAB]).map (fun n => n.size) = [nA0, nB0].map (fun n => n.size)
    ∧ (CustomLayoutEngine.layout oracleQ randQ { algorithm := some "grid" } [nA0, nB0]
        [edgeAB]).length = [nA0, nB0].length
    ∧ outA.nodes.map (fun n => n.id) = dataA.nodes.map (fun n => n.id)
    ∧ outA.nodes.map (fun n => n.size) = dataA.nodes.map (fun n => n.size)
    ∧ outA.nodes.length = dataA.nodes.length
    ∧ outA.edges = dataA.edges :=
  C5_preserves_identity oracleQ randQ { algorithm := some "grid" } [nA0, nB0] [edgeAB]
    okDagreQ okElkQ dataA LayoutEngineType.dagre outA
    (by
      norm_num +decide [LayoutManager.applyLayout, DagreLayoutEngine.layout,
        DagreLayoutEngine.toGraph, DagreLayoutEngine.mapDirection,
        DagreLayoutEngine.getBounds, okDagreQ, dataA, outA, nA0, cfg0, orFalsyStr])

/-! ## Claim C1: minimum extents equal the padding after applyLayout -/

theorem foldl_min_map_add (l : List α) (a c : α) :
    (l.map (fun x => x + c)).foldl min (a + c) = l.foldl min a + c := by
  induction l generalizing a with
  | nil => rfl
  | cons b t ih =>
    simp only [List.map_cons, List.foldl_cons]
    rw [min_add_add_right, ih]

theorem mem_size_of_key_eq {ns ms : List (DiagramNode α)}
    (hk : ns.map nodeKey = ms.map nodeKey) {n : DiagramNode α} (hn : n ∈ ns) :
    ∃ m ∈ ms, m.size = n.size := by
  have : nodeKey n ∈ ms.map nodeKey := by
    rw [← hk]
    exact List.mem_map_of_mem nodeKey hn
  rcases List.mem_map.mp this with ⟨m, hm, hkey⟩
  exact ⟨m, hm, congrArg Prod.snd hkey⟩

theorem length_of_key_eq {ns ms : List (DiagramNode α)}
    (hk : ns.map nodeKey = ms.map nodeKey) : ns.length = ms.length := by
  have := congrArg List.length hk
  simpa using this

theorem elk_getBounds_eq (ns : List (DiagramNode α)) :
    ElkJSLayoutEngine.getBounds ns = DagreLayoutEngine.getBounds ns := by
  cases ns <;> rfl

theorem minExtentX_centered (ns : List (DiagramNode α)) (hne : ns ≠ [])
    (hw : ∀ n ∈ ns, 0 ≤ n.size.width) :
    minExtentX (ns.map fun node =>
      { node with
        position := ⟨node.position.x + (DagreLayoutEngine.getBounds ns).offset.x,
                     node.position.y + (DagreLayoutEngine.getBounds ns).offset.y⟩ }) =
      some 50 := by
  cases ns with
  | nil => exact absurd rfl hne
  | cons m rest =>
    have hcx : (DagreLayoutEngine.getBounds (m :: rest)).offset.x =
        -(rest.foldl (fun a k => min a k.position.x) m.position.x) + 50 := rfl
    simp only [minExtentX, List.map_cons, List.map_map]
    have hhead : ∀ x w : α, 0 ≤ w → min x (x + w) = x := fun x w hw0 =>
      min_eq_left (le_add_of_nonneg_right hw0)
    rw [hhead _ _ (hw m (by simp))]
    have htail :
        rest.map ((fun n : DiagramNode α =>
            min n.position.x (n.position.x + n.size.width)) ∘ fun node =>
          { node with
            position := ⟨node.position.x + (DagreLayoutEngine.getBounds (m :: rest)).offset.x,
                         node.position.y + (DagreLayoutEngine.getBounds (m :: rest)).offset.y⟩ }) =
          rest.map fun n =>
            n.position.x + (DagreLayoutEngine.getBounds (m :: rest)).offset.x := by
      apply List.map_congr_left
      intro n hn
      exact hhead _ _ (hw n (by simp [hn]))
    rw [htail]
    have hmapmap :
        (rest.map fun n => n.position.x + (DagreLayoutEngine.getBounds (m :: rest)).offset.x) =
          (rest.map fun n => n.position.x).map
            (fun x => x + (DagreLayoutEngine.getBounds (m :: rest)).offset.x) := by
      rw [List.map_map]
      rfl
    rw [hmapmap, foldl_min_map_add, List.foldl_map, hcx]
    norm_num

theorem minExtentY_centered (ns : List (DiagramNode α)) (hne : ns ≠ [])
    (hh : ∀ n ∈ ns, 0 ≤ n.size.height) :
    minExtentY (ns.map fun node =>
      { node with
        position := ⟨node.position.x + (DagreLayoutEngine.getBounds ns).offset.x,
                     node.position.y + (DagreLayoutEngine.getBounds ns).offset.y⟩ }) =
      some 50 := by
  cases ns with
  | nil => exact absurd rfl hne
  | cons m rest =>
    have hcy : (DagreLayoutEngine.getBounds (m :: rest)).offset.y =
        -(rest.foldl (fun a k => min a k.position.y) m.position.y) + 50 := rfl
    simp only [minExtentY, List.map_cons, List.map_map]
    have hhead : ∀ y h : α, 0 ≤ h → min y (y + h) = y := fun y h hh0 =>
      min_eq_left (le_add_of_nonneg_right hh0)
    rw [hhead _ _ (hh m (by simp))]
    have htail :
        rest.map ((fun n : DiagramNode α =>
            min n.position.y (n.position.y + n.size.height)) ∘ fun node =>
          { node with
            position := ⟨node.position.x + (DagreLayoutEngine.getBounds (m :: rest)).offset.x,
                         node.position.y + (DagreLayoutEngine.getBounds (m :: rest)).offset.y⟩ }) =
          rest.map fun n =>
            n.position.y + (DagreLayoutEngine.getBounds (m :: rest)).offset.y := by
      apply List.map_congr_left
      intro n hn
      exact hhead _ _ (hh n (by simp [hn]))
    rw [htail]
    have hmapmap :
        (rest.map fun n => n.position.y + (DagreLayoutEngine.getBounds (m :: rest)).offset.y) =
          (rest.map fun n => n.position.y).map
            (fun y => y + (DagreLayoutEngine.getBounds (m :: rest)).offset.y) := by
      rw [List.map_map]
      rfl
    rw [hmapmap, foldl_min_map_add, List.foldl_map, hcy]
    norm_num

/-- C1: for every non-empty node list with nonnegative sizes and every
engine other than none, when applyLayout returns, the minima over all node
extents of x and of y both equal the padding 50: the offset derived from the
bounding box of the engine's repositioned nodes is added to every node. -/
theorem C1_applyLayout_padding (dagreSolve : DagreSolver α) (elkSolve : ElkSolver α)
    (data : SmartDiagramData α) (engine : LayoutEngineType) (out : SmartDiagramData α)
    (hne : data.nodes ≠ []) (heng : engine ≠ LayoutEngineType.none)
    (hsz : ∀ n ∈ data.nodes, 0 ≤ n.size.width ∧ 0 ≤ n.size.height)
    (hout : LayoutManager.applyLayout dagreSolve elkSolve data engine = Except.ok out) :
    minExtentX out.nodes = some 50 ∧ minExtentY out.nodes = some 50 := by
  unfold LayoutManager.applyLayout at hout
  rw [if_neg (by
    rintro (h | h)
    · exact heng h
    · exact hne (List.length_eq_zero.mp h))] at hout
  cases engine with
  | none => exact absurd rfl heng
  | dagre =>
    cases hlay : DagreLayoutEngine.layout dagreSolve data.nodes data.edges data.layout with
    | error e =>
      rw [hlay] at hout
      cases hout
    | ok layouted =>
      rw [hlay] at hout
      simp only [] at hout
      cases hout
      have hkey := dagreLayout_key dagreSolve data.nodes data.edges data.layout layouted hlay
      have hne2 : layouted ≠ [] := by
        intro h
        apply hne
        have := length_of_key_eq hkey
        rw [h] at this
        exact List.length_eq_zero.mp this.symm
      constructor
      · exact minExtentX_centered layouted hne2 fun n hn => by
          rcases mem_size_of_key_eq hkey hn with ⟨m, hm, hsz2⟩
          rw [← hsz2]
          exact (hsz m hm).1
      · exact minExtentY_centered layouted hne2 fun n hn => by
          rcases mem_size_of_key_eq hkey hn with ⟨m, hm, hsz2⟩
          rw [← hsz2]
          exact (hsz m hm).2
  | elkjs =>
    simp only [] at hout
    cases hout
    have hkey := elkLayout_key elkSolve data.nodes data.edges data.layout
    have hne2 : ElkJSLayoutEngine.layout elkSolve data.nodes data.edges data.layout ≠ [] := by
      intro h
      apply hne
      have := length_of_key_eq hkey
      rw [h] at this
      exact List.length_eq_zero.mp this.symm
    rw [elk_getBounds_eq]
    constructor
    · exact minExtentX_centered _ hne2 fun n hn => by
        rcases mem_size_of_key_eq hkey hn with ⟨m, hm, hsz2⟩
        rw [← hsz2]
        exact (hsz m hm).1
    · exact minExtentY_centered _ hne2 fun n hn => by
        rcases mem_size_of_key_eq hkey hn with ⟨m, hm, hsz2⟩
        rw [← hsz2]
        exact (hsz m hm).2

/-- Witness for C1 at the concrete one-node diagram with a succeeding dagre
solver: the resulting minima are exactly 50. -/
theorem C1_witness :
    minExtentX outA.nodes = some 50 ∧ minExtentY outA.nodes = some 50 :=
  C1_applyLayout_padding okDagreQ okElkQ dataA LayoutEngineType.dagre outA
    (by norm_num [dataA]) (by decide) (by decide)
    (by
      norm_num +decide [LayoutManager.applyLayout, DagreLayoutEngine.layout,
        DagreLayoutEngine.toGraph, DagreLayoutEngine.mapDirection,
        DagreLayoutEngine.getBounds, okDagreQ, dataA, outA, nA0, cfg0, orFalsyStr])

/-! ## Claim C7: circular layout radius and angles -/

theorem mapIdxGo_getElem {β γ : Type} (f : ℕ → β → γ) (l : List β) :
    ∀ (s k : ℕ), (mapIdxGo f s l)[k]? = (l[k]?).map (f (s + k)) := by
  induction l with
  | nil =>
    intro s k
    simp [mapIdxGo]
  | cons b t ih =>
    intro s k
    cases k with
    | zero => simp [mapIdxGo]
    | succ k =>
      have hs : s + 1 + k = s + (k + 1) := by omega
      simp only [mapIdxGo, List.getElem?_cons_succ, ih (s + 1) k, hs]

/-- C7: for a non-empty node list, the circular layout places every node at
Euclidean distance min(300, n * 50 / (2 pi)) from the configured center;
node k sits at angle (k / n) * 2 pi - pi / 2 in input order; and the edge
list (and the random stream) has no effect on the circular result. -/
theorem C7_circular_radius (opts : ResolvedOptions ℝ) (nodes : List (DiagramNode ℝ))
    (hne : nodes ≠ []) :
    (∀ p ∈ CustomLayoutEngine.circularLayout realOracle opts nodes,
      GeometryUtils.distance Real.sqrt p.position ⟨opts.centerX, opts.centerY⟩ =
        min 300 ((nodes.length : ℝ) * 50 / (2 * Real.pi)))
    ∧ (∀ (k : ℕ) (n : DiagramNode ℝ), nodes[k]? = some n →
        (CustomLayoutEngine.circularLayout realOracle opts nodes)[k]? = some
          { n with position :=
            ⟨opts.centerX + Real.cos (((k : ℝ) / (nodes.length : ℝ)) * (2 * Real.pi) -
                Real.pi / 2) * min 300 ((nodes.length : ℝ) * 50 / (2 * Real.pi)),
             opts.centerY + Real.sin (((k : ℝ) / (nodes.length : ℝ)) * (2 * Real.pi) -
                Real.pi / 2) * min 300 ((nodes.length : ℝ) * 50 / (2 * Real.pi))⟩ })
    ∧ (∀ (M : MathOracle ℝ) (rand1 rand2 : ℕ → ℝ) (o : CustomLayoutOptions ℝ)
        (edges1 edges2 : List DiagramEdge), (resolveOptions o).algorithm = "circular" →
        CustomLayoutEngine.layout M rand1 o nodes edges1 =
          CustomLayoutEngine.layout M rand2 o nodes edges2) := by
  have hr : (0 : ℝ) ≤ min 300 ((nodes.length : ℝ) * 50 / (2 * Real.pi)) :=
    le_min (by norm_num) (by positivity)
  refine ⟨?_, ?_, ?_⟩
  · intro p hp
    rcases List.mem_iff_getElem?.mp hp with ⟨k, hk⟩
    simp only [CustomLayoutEngine.circularLayout, mapIdxL] at hk
    rw [mapIdxGo_getElem] at hk
    cases hn : nodes[k]? with
    | none =>
      rw [hn] at hk
      cases hk
    | some n =>
      rw [hn] at hk
      simp only [Option.map_some', Option.some_inj] at hk
      subst hk
      simp only [GeometryUtils.distance, realOracle]
      have h1 :
          (opts.centerX - (opts.centerX +
            Real.cos ((((0 + k : ℕ) : ℝ) / (nodes.length : ℝ)) * (2 * Real.pi) - Real.pi / 2) *
              min 300 ((nodes.length : ℝ) * 50 / (2 * Real.pi)))) ^ 2 +
          (opts.centerY - (opts.centerY +
            Real.sin ((((0 + k : ℕ) : ℝ) / (nodes.length : ℝ)) * (2 * Real.pi) - Real.pi / 2) *
              min 300 ((nodes.length : ℝ) * 50 / (2 * Real.pi)))) ^ 2 =
          (Real.sin ((((0 + k : ℕ) : ℝ) / (nodes.length : ℝ)) * (2 * Real.pi) - Real.pi / 2) ^ 2 +
           Real.cos ((((0 + k : ℕ) : ℝ) / (nodes.length : ℝ)) * (2 * Real.pi) - Real.pi / 2) ^ 2) *
            min 300 ((nodes.length : ℝ) * 50 / (2 * Real.pi)) ^ 2 := by
        ring
      rw [h1, Real.sin_sq_add_cos_sq, one_mul, Real.sqrt_sq hr]
  · intro k n hn
    have h0 : 0 + k = k := Nat.zero_add k
    simp only [CustomLayoutEngine.circularLayout, mapIdxL]
    rw [mapIdxGo_getElem, hn, h0]
    rfl
  · intro M rand1 rand2 o edges1 edges2 halg
    simp [CustomLayoutEngine.layout, halg]

/-- Witness for C7: on the one-node list with default options, the list of
distances of the produced nodes from the center (400, 300) is exactly the
singleton min(300, 1 * 50 / (2 pi)). -/
theorem C7_witness :
    (CustomLayoutEngine.circularLayout realOracle optsR0 [nR0]).map
      (fun p => GeometryUtils.distance Real.sqrt p.position
        ⟨optsR0.centerX, optsR0.centerY⟩) =
      [min 300 ((([nR0] : List (DiagramNode ℝ)).length : ℝ) * 50 / (2 * Real.pi))] := by
  rw [List.map_congr_left
    (fun p hp => (C7_circular_radius optsR0 [nR0] (by simp)).1 p hp)]
  rfl

/-! ## Claims C8 and C10: list bookkeeping for the tree BFS -/

theorem mapIdxGo_length {β γ : Type} (f : ℕ → β → γ) (l : List β) (s : ℕ) :
    (mapIdxGo f s l).length = l.length := by
  induction l generalizing s with
  | nil => rfl
  | cons b t ih => simp [mapIdxGo, ih]

theorem mem_mapIdxGo {β γ : Type} {f : ℕ → β → γ} {l : List β} {s : ℕ} {c : γ}
    (hc : c ∈ mapIdxGo f s l) : ∃ (j : ℕ) (b : β), l[j]? = some b ∧ c = f (s + j) b := by
  rcases List.mem_iff_getElem?.mp hc with ⟨j, hj⟩
  rw [mapIdxGo_getElem] at hj
  cases hb : l[j]? with
  | none => rw [hb] at hj; cases hj
  | some b =>
    rw [hb] at hj
    simp only [Option.map_some', Option.some_inj] at hj
    exact ⟨j, b, hb, hj.symm⟩

theorem filterMapIdxGo_length_le {β γ : Type} (f : ℕ → β → Option γ) (l : List β) (s : ℕ) :
    (filterMapIdxGo f s l).length ≤ l.length := by
  induction l generalizing s with
  | nil => exact le_rfl
  | cons b t ih =>
    simp only [filterMapIdxGo]
    cases f s b with
    | some c => simpa using ih (s + 1)
    | none => simp only [List.length_cons]; exact (ih (s + 1)).trans (Nat.le_succ _)

theorem mem_filterMapIdxGo {β γ : Type} {f : ℕ → β → Option γ} {l : List β} {s : ℕ} {c : γ}
    (hc : c ∈ filterMapIdxGo f s l) :
    ∃ (j : ℕ) (b : β), l[j]? = some b ∧ f (s + j) b = some c := by
  induction l generalizing s with
  | nil => cases hc
  | cons b t ih =>
    simp only [filterMapIdxGo] at hc
    cases hb : f s b with
    | some d =>
      rw [hb] at hc
      rcases List.mem_cons.mp hc with hc | hc
      · exact ⟨0, b, by simp, by rw [Nat.add_zero, hb, hc]⟩
      · rcases ih hc with ⟨j, b2, hj, hf⟩
        exact ⟨j + 1, b2, by simpa using hj, by rw [← hf]; congr 1; omega⟩
    | none =>
      rw [hb] at hc
      rcases ih hc with ⟨j, b2, hj, hf⟩
      exact ⟨j + 1, b2, by simpa using hj, by rw [← hf]; congr 1; omega⟩

theorem filterMapIdxGo_mem_intro {β γ : Type} (f : ℕ → β → Option γ) (l : List β) :
    ∀ (s j : ℕ) (b : β) (c : γ), l[j]? = some b → f (s + j) b = some c →
    c ∈ filterMapIdxGo f s l := by
  induction l with
  | nil => intro s j b c hj; cases hj
  | cons hd t ih =>
    intro s j b c hj hf
    cases j with
    | zero =>
      rw [List.getElem?_cons_zero, Option.some_inj] at hj
      subst hj
      rw [Nat.add_zero] at hf
      simp only [filterMapIdxGo, hf]
      exact List.mem_cons_self _ _
    | succ j =>
      rw [List.getElem?_cons_succ] at hj
      have hf2 : f (s + 1 + j) b = some c := by rw [← hf]; congr 1; omega
      have := ih (s + 1) j b c hj hf2
      simp only [filterMapIdxGo]
      cases f s hd with
      | some d => exact List.mem_cons_of_mem d this
      | none => exact this

theorem filterMapIdxGo_eq_nil {β γ : Type} (f : ℕ → β → Option γ) (l : List β)
    (h : ∀ (k : ℕ) (b : β), b ∈ l → f k b = none) :
    ∀ s : ℕ, filterMapIdxGo f s l = [] := by
  induction l with
  | nil => intro s; rfl
  | cons b t ih =>
    intro s
    simp only [filterMapIdxGo, h s b (List.mem_cons_self b t)]
    exact ih (fun k c hc => h k c (List.mem_cons_of_mem b hc)) (s + 1)

theorem mem_filterMapIdxGo_of_pred {β γ : Type} (f : ℕ → β → Option γ) (P : γ → Prop)
    (b : β) (hP : ∀ (j : ℕ) (c : γ), f j b = some c → P c) (hb : ∀ j : ℕ, f j b ≠ none)
    (l : List β) (hmem : b ∈ l) :
    ∀ s : ℕ, ∃ c ∈ filterMapIdxGo f s l, P c := by
  induction l with
  | nil => cases hmem
  | cons hd t ih =>
    intro s
    rcases List.mem_cons.mp hmem with hbb | hbt
    · subst hbb
      cases hc : f s b with
      | none => exact absurd hc (hb s)
      | some c =>
        refine ⟨c, ?_, hP s c hc⟩
        simp only [filterMapIdxGo, hc]
        exact List.mem_cons_self _ _
    · rcases ih hbt (s + 1) with ⟨c, hcmem, hPc⟩
      refine ⟨c, ?_, hPc⟩
      simp only [filterMapIdxGo]
      cases f s hd with
      | some d => exact List.mem_cons_of_mem d hcmem
      | none => exact hcmem

theorem lastIdxGo_spec {a : String} {l : List String} :
    ∀ {s r : ℕ}, CustomLayoutEngine.lastIdxGo a s l = some r →
    ∃ j : ℕ, l[j]? = some a ∧ r = s + j := by
  induction l with
  | nil => intro s r h; cases h
  | cons b t ih =>
    intro s r h
    simp only [CustomLayoutEngine.lastIdxGo] at h
    cases ht : CustomLayoutEngine.lastIdxGo a (s + 1) t with
    | some r2 =>
      rw [ht] at h
      cases h
      rcases ih ht with ⟨j, hj, hr⟩
      exact ⟨j + 1, by simpa using hj, by omega⟩
    | none =>
      rw [ht] at h
      by_cases hba : b = a
      · rw [if_pos hba] at h
        cases h
        exact ⟨0, by simp [hba], by omega⟩
      · rw [if_neg hba] at h
        cases h

theorem lastIdxGo_isSome {a : String} {l : List String} (hmem : a ∈ l) :
    ∀ s : ℕ, CustomLayoutEngine.lastIdxGo a s l ≠ none := by
  induction l with
  | nil => cases hmem
  | cons b t ih =>
    intro s
    simp only [CustomLayoutEngine.lastIdxGo]
    cases ht : CustomLayoutEngine.lastIdxGo a (s + 1) t with
    | some r => simp
    | none =>
      rcases List.mem_cons.mp hmem with hba | hat
      · simp [hba]
      · exact absurd ht (ih hat (s + 1))

theorem lastIdxOf_spec {ids : List String} {a : String} {i : ℕ}
    (h : CustomLayoutEngine.lastIdxOf ids a = some i) : ids[i]? = some a := by
  rcases lastIdxGo_spec h with ⟨j, hj, hi⟩
  rw [hi, Nat.zero_add]
  exact hj

theorem lastIdxOf_isSome {ids : List String} {a : String} (hmem : a ∈ ids) :
    CustomLayoutEngine.lastIdxOf ids a ≠ none :=
  lastIdxGo_isSome hmem 0

theorem sum_filter_mono (l : List String) (g : String → ℕ) (p q : String → Prop)
    [DecidablePred p] [DecidablePred q] (h : ∀ x, p x → q x) :
    ((l.filter (fun x => p x)).map g).sum ≤ ((l.filter (fun x => q x)).map g).sum := by
  induction l with
  | nil => exact le_rfl
  | cons b t ih =>
    by_cases hp : p b
    · rw [List.filter_cons_of_pos (by simpa using hp),
        List.filter_cons_of_pos (by simpa using h b hp)]
      simpa using ih
    · rw [List.filter_cons_of_neg (by simpa using hp)]
      by_cases hq : q b
      · rw [List.filter_cons_of_pos (by simpa using hq)]
        simp only [List.map_cons, List.sum_cons]
        exact ih.trans (Nat.le_add_left _ _)
      · rw [List.filter_cons_of_neg (by simpa using hq)]
        exact ih

theorem sum_filter_drop (g : String → ℕ) (v : List String) (a : String) :
    ∀ l : List String, a ∈ l → ¬ a ∈ v →
    g a + ((l.filter (fun x => ¬ x ∈ a :: v)).map g).sum ≤
      ((l.filter (fun x => ¬ x ∈ v)).map g).sum := by
  intro l
  induction l with
  | nil => intro h; cases h
  | cons b t ih =>
    intro hmem hav
    by_cases hba : b = a
    · subst hba
      rw [List.filter_cons_of_neg (by simp), List.filter_cons_of_pos (by simpa using hav)]
      simp only [List.map_cons, List.sum_cons]
      have hmono : ((t.filter (fun x => ¬ x ∈ b :: v)).map g).sum ≤
          ((t.filter (fun x => ¬ x ∈ v)).map g).sum := by
        apply sum_filter_mono
        intro x hx hxv
        exact hx (List.mem_cons_of_mem b hxv)
      omega
    · have hat : a ∈ t := by
        rcases List.mem_cons.mp hmem with h | h
        · exact absurd h.symm hba
        · exact h
      by_cases hbv : b ∈ v
      · rw [List.filter_cons_of_neg (by simp [hbv]),
          List.filter_cons_of_neg (by simpa using hbv)]
        exact ih hat hav
      · have hbav : ¬ b ∈ a :: v := by
          simp only [List.mem_cons]
          rintro (h | h)
          · exact hba h
          · exact hbv h
        rw [List.filter_cons_of_pos (by simpa using hbav),
          List.filter_cons_of_pos (by simpa using hbv)]
        simp only [List.map_cons, List.sum_cons]
        have := ih hat hav
        omega

theorem sum_map_one_add (g : String → ℕ) (l : List String) :
    (l.map (fun a => 1 + g a)).sum = l.length + (l.map g).sum := by
  induction l with
  | nil => rfl
  | cons b t ih =>
    simp only [List.map_cons, List.sum_cons, List.length_cons, ih]
    omega

theorem ind_sum_zero (x : String) (l : List String) (h : ¬ x ∈ l) :
    (l.map (fun a => if x = a then 1 else 0)).sum = 0 := by
  induction l with
  | nil => rfl
  | cons b t ih =>
    simp only [List.map_cons, List.sum_cons]
    rw [if_neg, ih (fun hxt => h (List.mem_cons_of_mem b hxt))]
    · intro hxb
      subst hxb
      exact h (List.mem_cons_self x t)

theorem ind_sum_le_one (x : String) (l : List String) (h : l.Nodup) :
    (l.map (fun a => if x = a then 1 else 0)).sum ≤ 1 := by
  induction l with
  | nil => exact Nat.zero_le 1
  | cons b t ih =>
    simp only [List.map_cons, List.sum_cons]
    rcases List.nodup_cons.mp h with ⟨hbt, hnt⟩
    by_cases hxb : x = b
    · rw [if_pos hxb, ind_sum_zero x t (hxb ▸ hbt)]
    · rw [if_neg hxb, Nat.zero_add]
      exact ih hnt

theorem sum_map_add_split (f g : String → ℕ) (l : List String) :
    (l.map (fun a => f a + g a)).sum = (l.map f).sum + (l.map g).sum := by
  induction l with
  | nil => rfl
  | cons b t ih =>
    simp only [List.map_cons, List.sum_cons, ih]
    omega

theorem sum_adj_le (edges : List DiagramEdge) (L : List String) (h : L.Nodup) :
    (L.map (fun a => (CustomLayoutEngine.adjOf edges a).length)).sum ≤ edges.length := by
  induction edges with
  | nil =>
    have hz : (L.map (fun a =>
        (CustomLayoutEngine.adjOf ([] : List DiagramEdge) a).length)).sum = 0 := by
      induction L with
      | nil => rfl
      | cons b t ihL =>
        simp only [List.map_cons, List.sum_cons] at *
        simpa [CustomLayoutEngine.adjOf] using ihL
    simp [hz]
  | cons e es ih =>
    have hsplit : ∀ a, (CustomLayoutEngine.adjOf (e :: es) a).length =
        (if e.source = a then 1 else 0) + (CustomLayoutEngine.adjOf es a).length := by
      intro a
      simp only [CustomLayoutEngine.adjOf, List.length_map]
      by_cases hsa : e.source = a
      · rw [List.filter_cons_of_pos (by simpa using hsa), if_pos hsa]
        simp only [List.length_cons]
        omega
      · rw [List.filter_cons_of_neg (by simpa using hsa), if_neg hsa]
        simp
    rw [List.map_congr_left (fun a _ => hsplit a), sum_map_add_split]
    have h1 := ind_sum_le_one e.source L h
    simp only [List.length_cons]
    omega

/-! ## The tree BFS: monotonicity, soundness, frame and completeness -/

theorem treeBFS_visited_mono (edges : List DiagramEdge) (ids : List String) (fuel : ℕ) :
    ∀ (q : List (CustomLayoutEngine.QItem α)) (visited : List String)
      (ns : List (DiagramNode α)) (a : String), a ∈ visited →
      a ∈ (CustomLayoutEngine.treeBFS edges ids fuel q visited ns).2 := by
  induction fuel with
  | zero =>
    intro q visited ns a ha
    exact ha
  | succ fuel ih =>
    intro q visited ns a ha
    cases q with
    | nil => exact ha
    | cons item rest =>
      simp only [CustomLayoutEngine.treeBFS]
      cases hn : ns[item.idx]? with
      | none => exact ih rest visited ns a ha
      | some node =>
        by_cases hv : node.id ∈ visited
        · simp only [if_pos hv]
          exact ih rest visited ns a ha
        · simp only [if_neg hv]
          exact ih _ _ _ a (List.mem_cons_of_mem _ ha)

theorem closed_visited_reach (edges : List DiagramEdge) (ids : List String)
    (visited : List String)
    (hclosed : ∀ a ∈ visited, ∀ b, b ∈ CustomLayoutEngine.adjOf edges a → b ∈ ids →
      b ∈ visited)
    {r z : String} (hr : r ∈ visited)
    (h : Relation.ReflTransGen (idStep edges ids) r z) : z ∈ visited := by
  induction h with
  | refl => exact hr
  | tail h1 h2 ih => exact hclosed _ ih _ h2.1 h2.2

theorem treeBFS_visited_sound (edges : List DiagramEdge) (ids : List String)
    (R : String → Prop)
    (hstep : ∀ a b, R a → b ∈ CustomLayoutEngine.adjOf edges a → b ∈ ids → R b)
    (fuel : ℕ) :
    ∀ (q : List (CustomLayoutEngine.QItem α)) (visited : List String)
      (ns : List (DiagramNode α)),
      ns.map (fun n => n.id) = ids →
      (∀ a ∈ visited, R a) →
      (∀ it ∈ q, ∀ z, ids[it.idx]? = some z → R z) →
      ∀ a ∈ (CustomLayoutEngine.treeBFS edges ids fuel q visited ns).2, R a := by
  induction fuel with
  | zero =>
    intro q visited ns _ hvis _ a ha
    exact hvis a ha
  | succ fuel ih =>
    intro q visited ns hids hvis hq a ha
    cases q with
    | nil => exact hvis a ha
    | cons item rest =>
      simp only [CustomLayoutEngine.treeBFS] at ha
      cases hn : ns[item.idx]? with
      | none =>
        rw [hn] at ha
        simp only [] at ha
        exact ih rest visited ns hids hvis
          (fun it hit => hq it (List.mem_cons_of_mem _ hit)) a ha
      | some node =>
        rw [hn] at ha
        simp only [] at ha
        have hnodeid : ids[item.idx]? = some node.id := by
          rw [← hids, List.getElem?_map, hn]
          rfl
        have hRnode : R node.id := hq item (List.mem_cons_self _ _) node.id hnodeid
        by_cases hv : node.id ∈ visited
        · rw [if_pos hv] at ha
          exact ih rest visited ns hids hvis
            (fun it hit => hq it (List.mem_cons_of_mem _ hit)) a ha
        · rw [if_neg hv] at ha
          refine ih _ _ _ ?_ ?_ ?_ a ha
          · rw [List.map_set]
            have : (ns.map (fun n => n.id)).set item.idx node.id = ids.set item.idx node.id := by
              rw [hids]
            rw [this, set_self_of_getElem ids item.idx node.id hnodeid]
          · intro x hx
            rcases List.mem_cons.mp hx with hx | hx
            · exact hx ▸ hRnode
            · exact hvis x hx
          · intro it hit z hz
            rcases List.mem_append.mp hit with hit | hit
            · exact hq it (List.mem_cons_of_mem _ hit) z hz
            · rcases mem_filterMapIdxGo hit with ⟨j, cid, hcid, hf⟩
              cases hci : CustomLayoutEngine.lastIdxOf ids cid with
              | none =>
                rw [hci] at hf
                simp only [] at hf
                cases hf
              | some ci =>
                rw [hci] at hf
                simp only [] at hf
                by_cases hcv : cid ∈ node.id :: visited
                · rw [if_pos hcv] at hf
                  cases hf
                · rw [if_neg hcv] at hf
                  cases hf
                  have hspec := lastIdxOf_spec hci
                  rw [hspec, Option.some_inj] at hz
                  rw [← hz]
                  exact hstep node.id cid hRnode (List.getElem?_mem hcid)
                    (List.getElem?_mem hspec)

theorem treeBFS_untouched (edges : List DiagramEdge) (ids : List String) (fuel : ℕ) :
    ∀ (q : List (CustomLayoutEngine.QItem α)) (visited : List String)
      (ns : List (DiagramNode α)) (i : ℕ) (z : String),
      ns.map (fun n => n.id) = ids → ids[i]? = some z →
      ¬ z ∈ (CustomLayoutEngine.treeBFS edges ids fuel q visited ns).2 →
      (CustomLayoutEngine.treeBFS edges ids fuel q visited ns).1[i]? = ns[i]? := by
  induction fuel with
  | zero =>
    intro q visited ns i z _ _ _
    rfl
  | succ fuel ih =>
    intro q visited ns i z hids hiz hzfin
    cases q with
    | nil => rfl
    | cons item rest =>
      simp only [CustomLayoutEngine.treeBFS] at hzfin ⊢
      cases hn : ns[item.idx]? with
      | none =>
        rw [hn] at hzfin
        exact ih rest visited ns i z hids hiz hzfin
      | some node =>
        rw [hn] at hzfin
        simp only [] at hzfin ⊢
        have hnodeid : ids[item.idx]? = some node.id := by
          rw [← hids, List.getElem?_map, hn]
          rfl
        by_cases hv : node.id ∈ visited
        · rw [if_pos hv] at hzfin ⊢
          exact ih rest visited ns i z hids hiz hzfin
        · rw [if_neg hv] at hzfin ⊢
          have hids2 : (ns.set item.idx
              { node with position := ⟨item.x, item.y⟩ }).map (fun n => n.id) = ids := by
            rw [List.map_set]
            have : (ns.map (fun n => n.id)).set item.idx node.id = ids.set item.idx node.id := by
              rw [hids]
            rw [this, set_self_of_getElem ids item.idx node.id hnodeid]
          have hzne : ¬ z = node.id := by
            intro h
            subst h
            exact hzfin (treeBFS_visited_mono edges ids fuel _ _ _ _
              (List.mem_cons_self _ _))
          have hine : item.idx ≠ i := by
            intro h
            rw [h, hiz, Option.some_inj] at hnodeid
            exact hzne hnodeid
          rw [ih _ _ _ i z hids2 hiz hzfin]
          exact List.getElem?_set_ne hine

theorem treeBFS_visits_reachable (edges : List DiagramEdge) (ids : List String) (fuel : ℕ) :
    ∀ (q : List (CustomLayoutEngine.QItem α)) (visited : List String)
      (ns : List (DiagramNode α)),
      ns.map (fun n => n.id) = ids →
      (∀ it ∈ q, it.idx < ids.length) →
      bfsPotential edges ids visited q < fuel →
      (∀ a ∈ visited, ∀ b, b ∈ CustomLayoutEngine.adjOf edges a → b ∈ ids →
        b ∈ visited ∨ ∃ it ∈ q, ids[it.idx]? = some b) →
      ∀ z r, (r ∈ visited ∨ ∃ it ∈ q, ids[it.idx]? = some r) →
        Relation.ReflTransGen (idStep edges ids) r z →
        z ∈ (CustomLayoutEngine.treeBFS edges ids fuel q visited ns).2 := by
  induction fuel with
  | zero =>
    intro q visited ns _ _ hpot _ z r _ _
    exact absurd hpot (Nat.not_lt_zero _)
  | succ fuel ih =>
    intro q visited ns hids hq hpot hclosed z r hr hrtg
    cases q with
    | nil =>
      have hclosed2 : ∀ a ∈ visited, ∀ b, b ∈ CustomLayoutEngine.adjOf edges a →
          b ∈ ids → b ∈ visited := by
        intro a ha b hb hbids
        rcases hclosed a ha b hb hbids with h | ⟨it, hit, _⟩
        · exact h
        · cases hit
      have hrv : r ∈ visited := by
        rcases hr with h | ⟨it, hit, _⟩
        · exact h
        · cases hit
      exact closed_visited_reach edges ids visited hclosed2 hrv hrtg
    | cons item rest =>
      simp only [CustomLayoutEngine.treeBFS]
      have hlen : ids.length = ns.length := by
        rw [← hids, List.length_map]
      cases hn : ns[item.idx]? with
      | none =>
        exfalso
        have hlt : item.idx < ns.length := by
          rw [← hlen]
          exact hq item (List.mem_cons_self _ _)
        rw [List.getElem?_eq_none_iff] at hn
        omega
      | some node =>
        have hnodeid : ids[item.idx]? = some node.id := by
          rw [← hids, List.getElem?_map, hn]
          rfl
        have hpotc : bfsPotential edges ids visited rest + 1 =
            bfsPotential edges ids visited (item :: rest) := by
          simp only [bfsPotential, List.length_cons]
          omega
        by_cases hv : node.id ∈ visited
        · simp only [if_pos hv]
          refine ih rest visited ns hids
            (fun it hit => hq it (List.mem_cons_of_mem _ hit)) (by omega) ?_ z r ?_ hrtg
          · intro a ha b hb hbids
            rcases hclosed a ha b hb hbids with h | ⟨it, hit, hitid⟩
            · exact Or.inl h
            · rcases List.mem_cons.mp hit with hii | hii
              · subst hii
                rw [hnodeid, Option.some_inj] at hitid
                exact Or.inl (hitid ▸ hv)
              · exact Or.inr ⟨it, hii, hitid⟩
          · rcases hr with h | ⟨it, hit, hitid⟩
            · exact Or.inl h
            · rcases List.mem_cons.mp hit with hii | hii
              · subst hii
                rw [hnodeid, Option.some_inj] at hitid
                exact Or.inl (hitid ▸ hv)
              · exact Or.inr ⟨it, hii, hitid⟩
        · simp only [if_neg hv]
          refine ih _ _ _ ?_ ?_ ?_ ?_ z r ?_ hrtg
          · rw [List.map_set]
            have hmapset : (ns.map (fun n => n.id)).set item.idx node.id =
                ids.set item.idx node.id := by
              rw [hids]
            rw [hmapset, set_self_of_getElem ids item.idx node.id hnodeid]
          · intro it hit
            rcases List.mem_append.mp hit with hit | hit
            · exact hq it (List.mem_cons_of_mem _ hit)
            · rcases mem_filterMapIdxGo hit with ⟨j, cid, hcid, hf⟩
              cases hci : CustomLayoutEngine.lastIdxOf ids cid with
              | none =>
                rw [hci] at hf
                simp only [] at hf
                cases hf
              | some ci =>
                rw [hci] at hf
                simp only [] at hf
                by_cases hcv : cid ∈ node.id :: visited
                · rw [if_pos hcv] at hf
                  cases hf
                · rw [if_neg hcv] at hf
                  cases hf
                  have hspec := lastIdxOf_spec hci
                  rcases List.getElem?_eq_some_iff.mp hspec with ⟨hlt, _⟩
                  exact hlt
          · simp only [bfsPotential, List.length_append]
            simp only [bfsPotential, List.length_cons] at hpot
            have hdrop := sum_filter_drop
              (fun a => 1 + (CustomLayoutEngine.adjOf edges a).length) visited node.id
              ids.dedup (List.mem_dedup.mpr (List.getElem?_mem hnodeid)) hv
            simp only [] at hdrop
            have hpl : (filterMapIdxL (fun j cid =>
                match CustomLayoutEngine.lastIdxOf ids cid with
                | some ci =>
                  if cid ∈ node.id :: visited then none
                  else some (⟨ci, item.x - (((CustomLayoutEngine.adjOf edges
                      node.id).length : α) - 1) * 150 / 2 + (j : α) * 150,
                    item.y + 100, item.level + 1⟩ : CustomLayoutEngine.QItem α)
                | none => none) (CustomLayoutEngine.adjOf edges node.id)).length ≤
                (CustomLayoutEngine.adjOf edges node.id).length :=
              filterMapIdxGo_length_le _ _ 0
            omega
          · intro a ha b hb hbids
            rcases List.mem_cons.mp ha with ha | ha
            · subst ha
              by_cases hbv : b ∈ node.id :: visited
              · exact Or.inl hbv
              · refine Or.inr ?_
                have hres := mem_filterMapIdxGo_of_pred
                  (fun j cid =>
                    match CustomLayoutEngine.lastIdxOf ids cid with
                    | some ci =>
                      if cid ∈ node.id :: visited then none
                      else some (⟨ci, item.x - (((CustomLayoutEngine.adjOf edges
                          node.id).length : α) - 1) * 150 / 2 + (j : α) * 150,
                        item.y + 100, item.level + 1⟩ : CustomLayoutEngine.QItem α)
                    | none => none)
                  (fun c => ids[c.idx]? = some b) b ?_ ?_
                  (CustomLayoutEngine.adjOf edges node.id) hb 0
                · rcases hres with ⟨c, hcmem, hPc⟩
                  exact ⟨c, List.mem_append_right _ hcmem, hPc⟩
                · intro j c hc
                  try simp only [] at hc
                  cases hcb : CustomLayoutEngine.lastIdxOf ids b with
                  | none =>
                    rw [hcb] at hc
                    try simp only [] at hc
                    cases hc
                  | some cb =>
                    rw [hcb] at hc
                    try simp only [] at hc
                    rw [if_neg hbv] at hc
                    cases hc
                    exact lastIdxOf_spec hcb
                · intro j hno
                  try simp only [] at hno
                  cases hcb : CustomLayoutEngine.lastIdxOf ids b with
                  | none => exact lastIdxOf_isSome hbids hcb
                  | some cb =>
                    rw [hcb] at hno
                    try simp only [] at hno
                    rw [if_neg hbv] at hno
                    cases hno
            · rcases hclosed a ha b hb hbids with h | ⟨it, hit, hitid⟩
              · exact Or.inl (List.mem_cons_of_mem _ h)
              · rcases List.mem_cons.mp hit with hii | hii
                · subst hii
                  rw [hnodeid, Option.some_inj] at hitid
                  exact Or.inl (hitid ▸ List.mem_cons_self _ _)
                · exact Or.inr ⟨it, List.mem_append_left _ hii, hitid⟩
          · rcases hr with h | ⟨it, hit, hitid⟩
            · exact Or.inl (List.mem_cons_of_mem _ h)
            · rcases List.mem_cons.mp hit with hii | hii
              · subst hii
                rw [hnodeid, Option.some_inj] at hitid
                exact Or.inl (hitid ▸ List.mem_cons_self _ _)
              · exact Or.inr ⟨it, List.mem_append_left _ hii, hitid⟩

theorem mem_mapIdxL {β γ : Type} (f : ℕ → β → γ) (l : List β) (j : ℕ) (b : β)
    (hj : l[j]? = some b) : f j b ∈ mapIdxL f l := by
  have h : (mapIdxL f l)[j]? = some (f (0 + j) b) := by
    rw [mapIdxL, mapIdxGo_getElem, hj]
    rfl
  rw [Nat.zero_add] at h
  exact List.getElem?_mem h

theorem treeRootIdxs_lt (nodes : List (DiagramNode α)) (edges : List DiagramEdge) :
    ∀ i ∈ CustomLayoutEngine.treeRootIdxs nodes edges, i < nodes.length := by
  intro i hi
  simp only [CustomLayoutEngine.treeRootIdxs] at hi
  by_cases hcond : (filterMapIdxL (fun i n =>
      if n.id ∈ edges.map (fun e => e.target) then none else some i) nodes).isEmpty = true
      ∧ ¬ nodes.isEmpty = true
  · rw [if_pos hcond] at hi
    rcases List.mem_singleton.mp hi with rfl
    have : ¬ nodes = [] := by
      intro h
      exact hcond.2 (by simp [h])
    exact List.length_pos.mpr this
  · rw [if_neg hcond] at hi
    rcases mem_filterMapIdxGo hi with ⟨j, b, hj, hf⟩
    try simp only [] at hf
    by_cases hbt : b.id ∈ edges.map (fun e => e.target)
    · rw [if_pos hbt] at hf
      cases hf
    · rw [if_neg hbt] at hf
      cases hf
      rcases List.getElem?_eq_some_iff.mp hj with ⟨hlt, _⟩
      omega

theorem treeRootIdxs_length_le (nodes : List (DiagramNode α)) (edges : List DiagramEdge) :
    (CustomLayoutEngine.treeRootIdxs nodes edges).length ≤ nodes.length := by
  simp only [CustomLayoutEngine.treeRootIdxs]
  by_cases hcond : (filterMapIdxL (fun i n =>
      if n.id ∈ edges.map (fun e => e.target) then none else some i) nodes).isEmpty = true
      ∧ ¬ nodes.isEmpty = true
  · rw [if_pos hcond]
    have : ¬ nodes = [] := by
      intro h
      exact hcond.2 (by simp [h])
    have := List.length_pos.mpr this
    simpa using this
  · rw [if_neg hcond]
    exact filterMapIdxGo_length_le _ _ 0

/-- C8: root detection and reachability of the tree layout.  (i) Every node
that appears as the target of no edge is selected as a root (so whenever at
least one such node exists, all of them are roots and no fallback happens);
(ii) when every node has an incoming edge and the list is non-empty, exactly
the first node (index 0) is the sole root; (iii) every node reachable from a
detected root via the BFS's source-to-target adjacency over existing nodes
ends up in the visited set — and the BFS assigns a node's (finite) position
exactly when it adds its id to the visited set. -/
theorem C8_tree_root_detection (opts : ResolvedOptions α) (nodes : List (DiagramNode α))
    (edges : List DiagramEdge) :
    (∀ (i : ℕ) (n : DiagramNode α), nodes[i]? = some n →
      (∀ e ∈ edges, ¬ e.target = n.id) → i ∈ CustomLayoutEngine.treeRootIdxs nodes edges)
    ∧ ((∀ n ∈ nodes, ∃ e ∈ edges, e.target = n.id) → ¬ nodes = [] →
      CustomLayoutEngine.treeRootIdxs nodes edges = [0])
    ∧ (∀ z, ReachTree nodes edges z →
      z ∈ (CustomLayoutEngine.treeLayoutRun opts edges nodes).2) := by
  refine ⟨?_, ?_, ?_⟩
  · intro i n hin hno
    have hnt : ¬ n.id ∈ edges.map (fun e => e.target) := by
      intro hmem
      rcases List.mem_map.mp hmem with ⟨e, he, het⟩
      exact hno e he het
    have hi : (0 + i) ∈ filterMapIdxL (fun i n =>
        if n.id ∈ edges.map (fun e => e.target) then none else some i) nodes := by
      simp only [filterMapIdxL]
      exact filterMapIdxGo_mem_intro _ nodes 0 i n (0 + i) hin (by simp only [if_neg hnt])
    rw [Nat.zero_add] at hi
    simp only [CustomLayoutEngine.treeRootIdxs]
    rw [if_neg]
    · exact hi
    · rintro ⟨h1, _⟩
      rw [List.isEmpty_iff] at h1
      rw [h1] at hi
      cases hi
  · intro hall hne
    have hnil : filterMapIdxL (fun i n =>
        if n.id ∈ edges.map (fun e => e.target) then none else some i) nodes = [] := by
      apply filterMapIdxGo_eq_nil
      intro k b hb
      rcases hall b hb with ⟨e, he, het⟩
      have : b.id ∈ edges.map (fun e => e.target) :=
        List.mem_map.mpr ⟨e, he, het⟩
      simp only [if_pos this]
    simp only [CustomLayoutEngine.treeRootIdxs]
    rw [if_pos]
    constructor
    · rw [hnil]
      rfl
    · simpa [List.isEmpty_iff] using hne
  · intro z hz
    rcases hz with ⟨r, hrmem, hrtg⟩
    simp only [CustomLayoutEngine.treeLayoutRun]
    refine treeBFS_visits_reachable edges (nodes.map fun n => n.id) _ _ _ _ rfl
      ?_ ?_ ?_ z r ?_ ?_
    · intro it hit
      rcases mem_mapIdxGo hit with ⟨j, ri, hj, hdef⟩
      subst hdef
      have hlt := treeRootIdxs_lt nodes edges ri (List.getElem?_mem hj)
      simpa using hlt
    · simp only [bfsPotential]
      rw [List.filter_eq_self.mpr (by simp), sum_map_one_add, mapIdxL, mapIdxGo_length]
      have h1 := treeRootIdxs_length_le nodes edges
      have h2 : (nodes.map fun n => n.id).dedup.length ≤ nodes.length := by
        have := List.Sublist.length_le (List.dedup_sublist (nodes.map fun n => n.id))
        simpa using this
      have h3 := sum_adj_le edges (nodes.map fun n => n.id).dedup
        (List.nodup_dedup _)
      omega
    · intro a ha
      cases ha
    · rcases List.mem_filterMap.mp hrmem with ⟨i, hiroots, hisome⟩
      rcases List.mem_iff_getElem?.mp hiroots with ⟨j, hj⟩
      exact Or.inr ⟨_, mem_mapIdxL _ _ j i hj, hisome⟩
    · exact hrtg

/-- C10: a node the BFS never visits — one that is neither a detected root
nor reachable from any root through the source-to-target adjacency over
existing nodes (roots are reachable reflexively) — keeps its input record,
position included, at its input index in the returned node list. -/
theorem C10_unvisited_keeps_position (opts : ResolvedOptions α)
    (nodes : List (DiagramNode α)) (edges : List DiagramEdge) (i : ℕ) (n : DiagramNode α)
    (hn : nodes[i]? = some n) (hnr : ¬ ReachTree nodes edges n.id) :
    (CustomLayoutEngine.treeLayout opts edges nodes)[i]? = some n := by
  have hiz : (nodes.map fun m => m.id)[i]? = some n.id := by
    rw [List.getElem?_map, hn]
    rfl
  have hnv : ¬ n.id ∈ (CustomLayoutEngine.treeLayoutRun opts edges nodes).2 := by
    intro hmem
    apply hnr
    revert hmem
    simp only [CustomLayoutEngine.treeLayoutRun]
    intro hmem
    refine treeBFS_visited_sound edges (nodes.map fun m => m.id) (ReachTree nodes edges)
      ?_ _ _ _ _ rfl ?_ ?_ n.id hmem
    · intro a b hRa hbadj hbids
      rcases hRa with ⟨r, hr, hrtg⟩
      exact ⟨r, hr, hrtg.tail ⟨hbadj, hbids⟩⟩
    · intro a ha
      cases ha
    · intro it hit zz hzz
      rcases mem_mapIdxGo hit with ⟨j, ri, hj, hdef⟩
      subst hdef
      exact ⟨zz, List.mem_filterMap.mpr ⟨ri, List.getElem?_mem hj, hzz⟩,
        Relation.ReflTransGen.refl⟩
  simp only [CustomLayoutEngine.treeLayoutRun] at hnv
  simp only [CustomLayoutEngine.treeLayout, CustomLayoutEngine.treeLayoutRun]
  rw [treeBFS_untouched edges (nodes.map fun m => m.id) _ _ _ _ i n.id rfl hiz hnv]
  exact hn

/-- Witness for C8 at concrete diagrams: A with no incoming edge is a root
of A -> B; a single node with a self-loop falls back to the index-0 root;
and B, reachable from the root A, is visited by the BFS. -/
theorem C8_witness :
    0 ∈ CustomLayoutEngine.treeRootIdxs [nA0, nB0] [edgeAB]
    ∧ CustomLayoutEngine.treeRootIdxs [nB0] [loopB] = [0]
    ∧ "B" ∈ (CustomLayoutEngine.treeLayoutRun optsQ0 [edgeAB] [nA0, nB0]).2 := by
  refine ⟨(C8_tree_root_detection optsQ0 [nA0, nB0] [edgeAB]).1 0 nA0 (by simp)
      (by decide),
    (C8_tree_root_detection optsQ0 [nB0] [loopB]).2.1 (by decide) (by decide),
    (C8_tree_root_detection optsQ0 [nA0, nB0] [edgeAB]).2.2 "B"
      ⟨"A", by decide, Relation.ReflTransGen.single ⟨by decide, by decide⟩⟩⟩

/-- Witness for C10: with nodes A, B and only the self-loop B -> B, the sole
root is A, B is unreachable, and B keeps its input record at index 1. -/
theorem C10_witness :
    (CustomLayoutEngine.treeLayout optsQ0 [loopB] [nA0, nB0])[1]? = some nB0 := by
  refine C10_unvisited_keeps_position optsQ0 [nA0, nB0] [loopB] 1 nB0 (by simp) ?_
  rintro ⟨r, hr, hrtg⟩
  have hroot : rootIds ([nA0, nB0] : List (DiagramNode ℚ)) [loopB] = ["A"] := by decide
  rw [hroot] at hr
  rcases List.mem_singleton.mp hr with rfl
  have hadj : CustomLayoutEngine.adjOf [loopB] "A" = [] := by decide
  rcases Relation.ReflTransGen.cases_head hrtg with heq | ⟨c, hstep, _⟩
  · exact (by decide : ¬ ("A" : String) = "B") (by simpa [nB0] using heq)
  · obtain ⟨h1, _⟩ := hstep
    rw [hadj] at h1
    cases h1

end SmartArt
